import Mathlib

/-!
Verification of the `deno_googleapis` code generator
(`src/generator/generator.ts`) against its natural-language specification.

The generator is a pure, single-pass compiler from a parsed Google Discovery
document to a TypeScript client module.  We embed it shallowly:

* strings are modelled at the `List Char` level so that every definition is
  executable by the kernel (Lean's own `String` utilities use well-founded
  recursion and byte positions, which do not reduce definitionally);
* JavaScript runtime failures are modelled with `Except GenError`:
  `assert(...)` failures from `deps.ts` become `GenError.assertionError`
  (the spec's classified schema-assertion errors), while JavaScript
  `TypeError`s (property access on `undefined`) become `GenError.typeError`;
* `Array.prototype.sort` with a `localeCompare` comparator is modelled as a
  stable insertion sort over code-point order (`strLeB`);
* the emitted module is modelled at declaration granularity (`Decl`):
  free-text fragments (doc comments, query-string guards) have dedicated
  textual models where a claim is about the emitted text itself.
-/

set_option maxRecDepth 10000

/-! ## ASCII character model of JavaScript case conversion

`String.prototype.toUpperCase` / `toLowerCase` restricted to ASCII, which is
all the generator's inputs exercise (Discovery identifiers).
-/

/-- ASCII model of JS `toUpperCase` on one character. -/
def upChar (c : Char) : Char :=
  if h : 97 ≤ c.toNat ∧ c.toNat ≤ 122 then
    Char.ofNatAux (c.toNat - 32) (Or.inl (by omega))
  else c

/-- ASCII model of JS `toLowerCase` on one character. -/
def lowChar (c : Char) : Char :=
  if h : 65 ≤ c.toNat ∧ c.toNat ≤ 90 then
    Char.ofNatAux (c.toNat + 32) (Or.inl (by omega))
  else c

/-- `c` is an ASCII lowercase letter. -/
def isLowerB (c : Char) : Bool := 97 ≤ c.toNat && c.toNat ≤ 122

/-- `c` is an ASCII uppercase letter. -/
def isUpperB (c : Char) : Bool := 65 ≤ c.toNat && c.toNat ≤ 90

/-! ## Code-point string order

Model of the `(a, b) => a.localeCompare(b)` comparators used by every
`sort` call in `generator.ts` (lines 85, 86, 112, 295, 511, 529, 626, 718):
lexicographic comparison by code point.
-/

def strLeL : List Char → List Char → Bool
  | [], _ => true
  | _ :: _, [] => false
  | a :: as, b :: bs =>
    if a.toNat < b.toNat then true
    else if b.toNat < a.toNat then false
    else strLeL as bs

def strLeB (a b : String) : Bool := strLeL a.data b.data

/-! ## JS string splitting -/

/-- JS `str.split(sep)` for a single-character separator
(used as `title.split(" ")` in the constructor, generator.ts line 117). -/
def splitChar (sep : Char) : List Char → List (List Char)
  | [] => [[]]
  | c :: rest =>
    if c = sep then [] :: splitChar sep rest
    else
      match splitChar sep rest with
      | w :: ws => (c :: w) :: ws
      | [] => [[c]]

def splitOnSpace (s : String) : List String :=
  (splitChar ' ' s.data).map (fun l => String.mk l)

/-! ## `camelCase`, `pascalCase` (generator.ts lines 23-37) -/

/-- JS `n[0].toUpperCase() + n.slice(1)`.  On the empty string the original
throws a `TypeError` (`undefined.toUpperCase`); we totalise it as the empty
string — every theorem about it assumes nonempty segments. -/
def capFirst : List Char → List Char
  | [] => []
  | c :: cs => upChar c :: cs

/-- generator.ts lines 23-33: fold that keeps the first part verbatim and
capitalises later ones (`if (name !== "") name += cap(n) else name += n`). -/
def camelCaseL (parts : List (List Char)) : List Char :=
  parts.foldl (fun name n => if name = [] then name ++ n else name ++ capFirst n) []

def camelCase (parts : List String) : String :=
  String.mk (camelCaseL (parts.map String.data))

/-- generator.ts lines 35-37: `parts.map(cap).join("")`. -/
def pascalCaseL (parts : List (List Char)) : List Char :=
  (parts.map capFirst).flatten

def pascalCase (parts : List String) : String :=
  String.mk (pascalCaseL (parts.map String.data))

/-! ## `primaryName` (generator.ts lines 39-55)

The loop mutates `name` in place and advances `index`; we carry fuel to keep
the definition executable (one unit per loop iteration; the loop advances
`index` by at least 1 per iteration, so `name.length + 1` units suffice,
proved in `primaryNameGo_fuel_irrelevant`).
-/

def lowerL (l : List Char) : List Char := l.map lowChar

/-- `name.toLowerCase().startsWith(word.toLowerCase(), index)`. -/
def lowerMatchAt (name w : List Char) (i : Nat) : Bool :=
  List.isPrefixOf (lowerL w) ((lowerL name).drop i)

/-- `name.slice(0, startIndex) + word + name.slice(index)`. -/
def spliceAt (name w : List Char) (i j : Nat) : List Char :=
  name.take i ++ w ++ name.drop j

def primaryNameGo (fuel : Nat) (words : List (List Char)) (name : List Char) (i : Nat) :
    List Char :=
  match fuel with
  | 0 => name
  | fuel + 1 =>
    if i < name.length then
      match words.find? (fun w => lowerMatchAt name w i) with
      | some w =>
        let j := i + w.length
        let name2 := spliceAt name w i j
        if j = i then primaryNameGo fuel words name2 (j + 1)
        else primaryNameGo fuel words name2 j
      | none => primaryNameGo fuel words name (i + 1)
    else name

/-- The loop of `primaryName` entered at position `i` (with enough fuel for
the remaining `name.length - i` iterations). -/
def primaryNameLoop (words : List (List Char)) (name : List Char) (i : Nat) : List Char :=
  primaryNameGo (name.length - i + 1) words name i

/-- generator.ts lines 39-55. -/
def primaryName (name : String) (words : List String) : String :=
  String.mk (primaryNameLoop (words.map String.data) name.data 0)

/-! ## Discovery data model (`generator.ts` imports of discovery:v1 types)

`JsonSchema` is a single record in the source; the switch in the generator
dispatches on its `type` string, falling back to a `$ref` check.  Field
order of the constructor: id, type, format, enum, items, properties,
additionalProperties, $ref, required, readOnly, repeated, location,
description.  Boolean fields model JS truthiness of `boolean | undefined`.
-/

inductive JsonSchema where
  | mk (id : Option String) (type' : Option String) (format : Option String)
       (enum : Option (List String)) (items : Option JsonSchema)
       (properties : Option (List (String × JsonSchema)))
       (additionalProperties : Option JsonSchema) (ref : Option String)
       (required : Bool) (readOnly : Bool) (repeated : Bool)
       (location : Option String) (description : Option String)

def JsonSchema.id : JsonSchema → Option String
  | .mk i _ _ _ _ _ _ _ _ _ _ _ _ => i

def JsonSchema.type' : JsonSchema → Option String
  | .mk _ t _ _ _ _ _ _ _ _ _ _ _ => t

def JsonSchema.format : JsonSchema → Option String
  | .mk _ _ f _ _ _ _ _ _ _ _ _ _ => f

def JsonSchema.items : JsonSchema → Option JsonSchema
  | .mk _ _ _ _ it _ _ _ _ _ _ _ _ => it

def JsonSchema.properties : JsonSchema → Option (List (String × JsonSchema))
  | .mk _ _ _ _ _ p _ _ _ _ _ _ _ => p

def JsonSchema.additionalProperties : JsonSchema → Option JsonSchema
  | .mk _ _ _ _ _ _ a _ _ _ _ _ _ => a

def JsonSchema.ref : JsonSchema → Option String
  | .mk _ _ _ _ _ _ _ r _ _ _ _ _ => r

def JsonSchema.required : JsonSchema → Bool
  | .mk _ _ _ _ _ _ _ _ rq _ _ _ _ => rq

def JsonSchema.readOnly : JsonSchema → Bool
  | .mk _ _ _ _ _ _ _ _ _ ro _ _ _ => ro

def JsonSchema.repeated : JsonSchema → Bool
  | .mk _ _ _ _ _ _ _ _ _ _ rp _ _ => rp

def JsonSchema.location : JsonSchema → Option String
  | .mk _ _ _ _ _ _ _ _ _ _ _ l _ => l

/-- `RestMethod` with the fields the generator reads. -/
structure RestMethod where
  path : Option String
  httpMethod : Option String
  description : Option String
  parameters : Option (List (String × JsonSchema))
  request : Option JsonSchema
  response : Option JsonSchema

inductive RestResource where
  | mk (methods : Option (List (String × RestMethod)))
       (resources : Option (List (String × RestResource)))

def RestResource.methods : RestResource → Option (List (String × RestMethod))
  | .mk m _ => m

def RestResource.resources : RestResource → Option (List (String × RestResource))
  | .mk _ r => r

structure RestDescription where
  name : Option String
  title : Option String
  description : Option String
  documentationLink : Option String
  rootUrl : Option String
  servicePath : Option String
  resources : Option (List (String × RestResource))
  schemas : Option (List (String × JsonSchema))

/-! ## Resource flattener (`#visitResource`, generator.ts lines 69-114) -/

/-- The derived method record (`interface Method extends RestMethod`). -/
structure MethodRec where
  base : RestMethod
  camelCaseName : String
  pascalCaseName : String
  queryParams : List (String × JsonSchema)
  pathParams : List (String × JsonSchema)

/-- Comparator `(a, b) => a[0].localeCompare(b[0])` on parameter entries. -/
def paramLe (a b : String × JsonSchema) : Prop := strLeB a.1 b.1 = true

instance : DecidableRel paramLe := fun a b => inferInstanceAs (Decidable (_ = true))

/-- One iteration of the method loop in `#visitResource` (lines 71-95):
partition `method.parameters` by `location`, sort both partitions, and build
the record.  `Array.prototype.sort` is modelled by a stable insertion sort. -/
def mkMethodRec (parts : List String) (m : RestMethod) : MethodRec :=
  let pq : List (String × JsonSchema) × List (String × JsonSchema) :=
    match m.parameters with
    | some params =>
      params.foldl (fun acc nv =>
        if nv.2.location = some "query" then (acc.1 ++ [nv], acc.2)
        else if nv.2.location = some "path" then (acc.1, acc.2 ++ [nv])
        else acc) ([], [])
    | none => ([], [])
  ⟨m, camelCase parts, pascalCase parts,
   List.insertionSort paramLe pq.1, List.insertionSort paramLe pq.2⟩

mutual

def visitResource (names : List String) : RestResource → List MethodRec
  | .mk ms rs =>
    (match ms with
     | some l => l.map (fun p => mkMethodRec (names ++ [p.1]) p.2)
     | none => []) ++
    (match rs with
     | some l => visitResources names l
     | none => [])

def visitResources (names : List String) : List (String × RestResource) → List MethodRec
  | [] => []
  | (nm, r) :: rest => visitResource (names ++ [nm]) r ++ visitResources names rest

end

/-- The constructor's traversal of `schema.resources` (lines 107-111). -/
def flattenMethods (d : RestDescription) : List MethodRec :=
  match d.resources with
  | some rs => visitResources [] rs
  | none => []

/-- Comparator `(a, b) => a.camelCaseName.localeCompare(b.camelCaseName)`. -/
def mrecLe (a b : MethodRec) : Prop := strLeB a.camelCaseName b.camelCaseName = true

instance : DecidableRel mrecLe := fun a b => inferInstanceAs (Decidable (_ = true))

/-- `this.#methods` after the constructor's sort (lines 112-114). -/
def sortedMethods (d : RestDescription) : List MethodRec :=
  List.insertionSort mrecLe (flattenMethods d)

/-! ## Errors

`assertionError` models an `assert(...)` failure from `deps.ts` (the spec's
classified schema-assertion errors); `typeError` models an uncaught JS
`TypeError` from a property access on `undefined`.
-/

inductive GenError where
  | assertionError (msg : String)
  | typeError (msg : String)
  deriving DecidableEq, Repr

/-! ## Conversion analyzer (`#isConversionRequired`, generator.ts lines 757-800)

The JS recursion threads one mutable `Set` of visited `$ref` names through a
whole top-level query; we model it by explicit state passing (the returned
visited list).  The recursion is not structural (a `$ref` jumps to an
arbitrary schema), so the definition carries fuel; `isConvFuel_convFuel`
proves that `convFuel` units always suffice, and the analyzer proper
(`isConversionRequiredE`) runs with that bound.  `none` means "out of fuel".
-/

mutual

def isConvFuel (schemas : Option (List (String × JsonSchema))) :
    Nat → JsonSchema → List String → Option (Except GenError (Bool × List String))
  | 0, _, _ => none
  | fuel + 1, t, visited =>
    match t.type' with
    | some "any" => some (.ok (false, visited))
    | some "array" =>
      match t.items with
      | some it => isConvFuel schemas fuel it visited
      | none => some (.error (.assertionError ""))
    | some "boolean" => some (.ok (false, visited))
    | some "number" => some (.ok (false, visited))
    | some "integer" => some (.ok (false, visited))
    | some "string" => some (.ok (t.format.isSome, visited))
    | some "object" =>
      match t.additionalProperties with
      | some ap => isConvFuel schemas fuel ap visited
      | none =>
        match t.properties with
        | some props => isConvPropsFuel schemas fuel props visited
        | none => some (.ok (false, visited))
    | _ =>
      match t.ref with
      | some r =>
        if r ∈ visited then some (.ok (false, visited))
        else
          match schemas with
          | none => some (.error (.typeError "cannot read properties of undefined"))
          | some tbl =>
            match tbl.lookup r with
            | some s => isConvFuel schemas fuel s (r :: visited)
            | none => some (.error (.typeError "cannot read properties of undefined"))
      | none => some (.ok (true, visited))

def isConvPropsFuel (schemas : Option (List (String × JsonSchema))) :
    Nat → List (String × JsonSchema) → List String →
    Option (Except GenError (Bool × List String))
  | 0, _, _ => none
  | _ + 1, [], visited => some (.ok (false, visited))
  | fuel + 1, (_, p) :: rest, visited =>
    if p.readOnly then isConvPropsFuel schemas fuel rest visited
    else
      match isConvFuel schemas fuel p visited with
      | none => none
      | some (.error e) => some (.error e)
      | some (.ok (true, v')) => some (.ok (true, v'))
      | some (.ok (false, v')) => isConvPropsFuel schemas fuel rest v'

end

def keysOf (schemas : Option (List (String × JsonSchema))) : List String :=
  match schemas with
  | some tbl => tbl.map Prod.fst
  | none => []

/-- Number of schema names not yet in the visited set. -/
def unvisitedCount (schemas : Option (List (String × JsonSchema)))
    (visited : List String) : Nat :=
  ((keysOf schemas).filter (fun k => !(visited.contains k))).length

mutual

/-- Structural size of a schema node (the auto-generated `SizeOf` for the
nested inductive is not executable). -/
def schemaSize : JsonSchema → Nat
  | .mk _ _ _ _ items props addl _ _ _ _ _ _ =>
    (match items with | some s => schemaSize s | none => 0) +
    (match addl with | some s => schemaSize s | none => 0) +
    (match props with | some l => schemaSizeProps l | none => 0) + 1

def schemaSizeProps : List (String × JsonSchema) → Nat
  | [] => 0
  | (_, s) :: rest => schemaSize s + schemaSizeProps rest + 1

end

def maxSchemaSizeAux : List (String × JsonSchema) → Nat
  | [] => 0
  | (_, s) :: rest => max (schemaSize s) (maxSchemaSizeAux rest)

def maxSchemaSize (schemas : Option (List (String × JsonSchema))) : Nat :=
  match schemas with
  | some tbl => maxSchemaSizeAux tbl
  | none => 0

/-- A fuel bound sufficient for any query (proved in `isConvFuel_convFuel`). -/
def convFuel (schemas : Option (List (String × JsonSchema))) (t : JsonSchema)
    (visited : List String) : Nat :=
  unvisitedCount schemas visited * (maxSchemaSize schemas + 2) + schemaSize t + 1

/-- The fuel measure for the property loop of the analyzer. -/
def convFuelProps (schemas : Option (List (String × JsonSchema)))
    (ps : List (String × JsonSchema)) (visited : List String) : Nat :=
  unvisitedCount schemas visited * (maxSchemaSize schemas + 2) + schemaSizeProps ps + 1

/-- `this.#isConversionRequired(t)` with its fresh per-query visited set. -/
def isConversionRequiredE (schemas : Option (List (String × JsonSchema)))
    (t : JsonSchema) : Except GenError Bool :=
  match isConvFuel schemas (convFuel schemas t []) t [] with
  | some r => r.map Prod.fst
  | none => Except.error (GenError.typeError "")

/-! ## Codec emitters: base64 flag effects
(`#writeSerializer` lines 664-755, `#writeDeserializer` lines 572-662)

The claims about codec emission concern which functions exist and which
base64 helpers get flagged, so we model the two writers by their effect:
the `Bool` is `true` iff the writer set `needsBase64Encoder`
(resp. `needsBase64Decoder`), and errors are the writers' assertions.
The property sort (lines 626/718) is omitted: it changes only the textual
order of the emitted fields, not the flags (when several properties are
erroneous, which error surfaces may differ; no claim depends on that).
The `assert((t.properties?.length ?? 0) === 0)` on the
`additionalProperties` path always passes in JS (an object has no `length`
property, so the expression is `0`), hence it is not modelled.
-/

mutual

def serFlagsFuel (schemas : Option (List (String × JsonSchema))) :
    Nat → JsonSchema → Option (Except GenError Bool)
  | 0, _ => none
  | fuel + 1, t =>
    match isConversionRequiredE schemas t with
    | .error e => some (.error e)
    | .ok conv =>
      if !conv then some (.ok false)
      else
        match t.type' with
        | some "array" =>
          match t.items with
          | some it => serFlagsFuel schemas fuel it
          | none => some (.error (.assertionError ""))
        | some "string" =>
          match t.format with
          | some f => some (.ok (f = "byte"))
          | none => some (.ok false)
        | some "object" =>
          match t.additionalProperties with
          | some ap => serFlagsFuel schemas fuel ap
          | none =>
            match t.properties with
            | some ps => serFlagsPropsFuel schemas fuel ps
            | none => some (.ok false)
        | _ =>
          match t.ref with
          | some _ => some (.ok false)
          | none => some (.error (.assertionError "unknown type"))

def serFlagsPropsFuel (schemas : Option (List (String × JsonSchema))) :
    Nat → List (String × JsonSchema) → Option (Except GenError Bool)
  | 0, _ => none
  | _ + 1, [] => some (.ok false)
  | fuel + 1, (_, p) :: rest =>
    match isConversionRequiredE schemas p with
    | .error e => some (.error e)
    | .ok conv =>
      if !conv then serFlagsPropsFuel schemas fuel rest
      else if p.readOnly then serFlagsPropsFuel schemas fuel rest
      else
        match serFlagsFuel schemas fuel p with
        | none => none
        | some (.error e) => some (.error e)
        | some (.ok f) =>
          match serFlagsPropsFuel schemas fuel rest with
          | none => none
          | some (.error e) => some (.error e)
          | some (.ok frest) => some (.ok (f || frest))

end

/-- `#writeSerializer(t, ident)`, by its effects: `true` iff it set
`needsBase64Encoder`; errors are its assertions.  The structural recursion
descends strictly in `schemaSize`, so `schemaSize t + 1` fuel suffices
(`serFlagsFuel_isSome`). -/
def serFlagsE (schemas : Option (List (String × JsonSchema))) (t : JsonSchema) :
    Except GenError Bool :=
  match serFlagsFuel schemas (schemaSize t + 1) t with
  | some r => r
  | none => .error (.typeError "")

mutual

def deserFlagsFuel (schemas : Option (List (String × JsonSchema))) :
    Nat → JsonSchema → Option (Except GenError Bool)
  | 0, _ => none
  | fuel + 1, t =>
    match isConversionRequiredE schemas t with
    | .error e => some (.error e)
    | .ok conv =>
      if !conv then some (.ok false)
      else
        match t.type' with
        | some "array" =>
          match t.items with
          | some it => deserFlagsFuel schemas fuel it
          | none => some (.error (.assertionError ""))
        | some "string" =>
          match t.format with
          | some f => some (.ok (f = "byte"))
          | none => some (.ok false)
        | some "object" =>
          match t.additionalProperties with
          | some ap => deserFlagsFuel schemas fuel ap
          | none =>
            match t.properties with
            | some ps => deserFlagsPropsFuel schemas fuel ps
            | none => some (.ok false)
        | _ =>
          match t.ref with
          | some _ => some (.ok false)
          | none => some (.error (.assertionError "unknown type"))

def deserFlagsPropsFuel (schemas : Option (List (String × JsonSchema))) :
    Nat → List (String × JsonSchema) → Option (Except GenError Bool)
  | 0, _ => none
  | _ + 1, [] => some (.ok false)
  | fuel + 1, (_, p) :: rest =>
    match isConversionRequiredE schemas p with
    | .error e => some (.error e)
    | .ok conv =>
      if !conv then deserFlagsPropsFuel schemas fuel rest
      else
        match deserFlagsFuel schemas fuel p with
        | none => none
        | some (.error e) => some (.error e)
        | some (.ok f) =>
          match deserFlagsPropsFuel schemas fuel rest with
          | none => none
          | some (.error e) => some (.error e)
          | some (.ok frest) => some (.ok (f || frest))

end

/-- `#writeDeserializer(t, ident)`, by its effects: `true` iff it set
`needsBase64Decoder`.  Unlike the serializer, `readOnly` properties are not
skipped. -/
def deserFlagsE (schemas : Option (List (String × JsonSchema))) (t : JsonSchema) :
    Except GenError Bool :=
  match deserFlagsFuel schemas (schemaSize t + 1) t with
  | some r => r
  | none => .error (.typeError "")

/-! ## Declaration-level module assembly -/

/-- The declarations the generator emits, in emission order.  Free text
(doc comments, method bodies) is modelled separately where a claim needs
it. -/
inductive Decl where
  | header
  | imports
  | classDecl (name : String)
  | methodDecl (camelName : String)
  | interfaceDecl (id : String)
  | serializeFn (id : String)
  | deserializeFn (id : String)
  | base64DecoderFn
  | base64EncoderFn
  deriving DecidableEq, Repr

/-- Mutable generator state: the schema table (`this.#schema.schemas`), the
two base64 flags, and the declarations written so far. -/
structure GenSt where
  table : Option (List (String × JsonSchema))
  needsEnc : Bool
  needsDec : Bool
  decls : List Decl

/-- `this.#schema.schemas![name] = schema` on a defined table: JS object
assignment keeps an existing key's position and appends a new key. -/
def upsertSchema : List (String × JsonSchema) → String → JsonSchema →
    List (String × JsonSchema)
  | [], n, s => [(n, s)]
  | (k, v) :: rest, n, s =>
    if k = n then (n, s) :: rest else (k, v) :: upsertSchema rest n s

/-- The loop `for ([name, param] of method.pathParams) assert(param.required)`
(generator.ts lines 393-394). -/
def checkPathParams : List (String × JsonSchema) → Except GenError Unit
  | [] => .ok ()
  | (_, p) :: rest =>
    if p.required then checkPathParams rest
    else .error (.assertionError "path params must be required")

/-- The `{ $ref: name }` node for the `opts` parameter (line 419). -/
def refNode (r : String) : JsonSchema :=
  .mk none none none none none none none (some r) false false false none none

/-- The synthetic `${PascalCaseName}Options` schema (lines 408-415). -/
def mkOptionsSchema (primaryNm : String) (m : MethodRec) (optName : String) : JsonSchema :=
  .mk (some optName) (some "object") none none none (some m.queryParams) none none
    false false false none
    (some ("Additional options for " ++ primaryNm ++ "#" ++ m.camelCaseName ++ "."))

/-- The parameter-serialization loop of `#writeMethod` (lines 439-445): for
every parameter whose schema requires conversion, write
`name = serialize(...)`, accumulating the base64-encoder flag. -/
def serializeParamsLoop (schemas : Option (List (String × JsonSchema))) :
    List (String × JsonSchema) → Bool → Except GenError Bool
  | [], enc => .ok enc
  | (_, sch) :: rest, enc => do
    let conv ← isConversionRequiredE schemas sch
    if conv then
      let f ← serFlagsE schemas sch
      serializeParamsLoop schemas rest (enc || f)
    else serializeParamsLoop schemas rest enc

/-- `#writeMethod` (generator.ts lines 391-506) at declaration granularity.
Modelled effects, in source order: the path-parameter `required` asserts;
the synthetic options-schema insertion into `this.#schema.schemas!` (a JS
`TypeError` when the table is `undefined`); parameter serialization
(conversion queries plus encoder flag); `assert(method.path)`;
`assert(method.httpMethod)`; the response conversion query.  Doc comments,
the signature's type expressions, URL construction and the query-string
guards are text-only (see `writeQueryGuard` and `docCommentLines`). -/
def writeMethodM (primaryNm : String) (st : GenSt) (m : MethodRec) :
    Except GenError GenSt := do
  checkPathParams m.pathParams
  let rparams : List (String × JsonSchema) :=
    match m.base.request with
    | some r => [("req", r)]
    | none => []
  let step ←
    if m.queryParams.isEmpty then pure (st, ([] : List (String × JsonSchema)))
    else
      let optName := m.pascalCaseName ++ "Options"
      match st.table with
      | none => throw (GenError.typeError "cannot set properties of undefined")
      | some tbl =>
        pure ({ st with
                 table := some (upsertSchema tbl optName
                   (mkOptionsSchema primaryNm m optName)) },
              [("opts", refNode optName)])
  let st1 := step.1
  let enc ← serializeParamsLoop st1.table (m.pathParams ++ rparams ++ step.2) st1.needsEnc
  if m.base.path.isNone then throw (GenError.assertionError "")
  if m.base.httpMethod.isNone then throw (GenError.assertionError "")
  match m.base.response with
  | some resp =>
    let _ ← isConversionRequiredE st1.table resp
    pure { st1 with needsEnc := enc,
                    decls := st1.decls ++ [Decl.methodDecl m.camelCaseName] }
  | none =>
    pure { st1 with needsEnc := enc,
                    decls := st1.decls ++ [Decl.methodDecl m.camelCaseName] }

/-- The method loop of `#writePrimary` (lines 350-352). -/
def methodsPass (primaryNm : String) (st : GenSt) :
    List MethodRec → Except GenError GenSt
  | [] => pure st
  | m :: rest => do
    let st1 ← writeMethodM primaryNm st m
    methodsPass primaryNm st1 rest

/-- `#writeType` up to its assertions (lines 519-526): `assert(schema.id)`,
then `assert(schema.type === "object", "schema must be an object")`;
returns the interface name. -/
def writeTypeCheck (s : JsonSchema) : Except GenError String :=
  match s.id with
  | none => .error (.assertionError "")
  | some i =>
    if s.type' = some "object" then .ok i
    else .error (.assertionError "schema must be an object")

/-- Comparator `(a, b) => (a.id ?? "").localeCompare(b.id ?? "")` (line 511). -/
def schemaIdLe (a b : JsonSchema) : Prop :=
  strLeB (a.id.getD "") (b.id.getD "") = true

instance : DecidableRel schemaIdLe := fun a b => inferInstanceAs (Decidable (_ = true))

/-- The loop body of `#writeTypes` (lines 512-516): for each schema, the
interface (`#writeType`), then `serializeX` iff conversion is required
(`#writeSerializerFunction`), then `deserializeX` iff conversion is
required (`#writeDeserializerFunction`), with the body writers' flag
effects. -/
def typesLoop (schemas : Option (List (String × JsonSchema))) (st : GenSt) :
    List JsonSchema → Except GenError GenSt
  | [] => pure st
  | s :: rest => do
    let i ← writeTypeCheck s
    let conv ← isConversionRequiredE schemas s
    let st1 ←
      if conv then do
        let fe ← serFlagsE schemas s
        let fd ← deserFlagsE schemas s
        pure { st with
               needsEnc := st.needsEnc || fe, needsDec := st.needsDec || fd,
               decls := st.decls ++
                 [Decl.interfaceDecl i, Decl.serializeFn i, Decl.deserializeFn i] }
      else pure { st with decls := st.decls ++ [Decl.interfaceDecl i] }
    typesLoop schemas st1 rest

/-- `#writeTypes` (lines 508-517): nothing when `schemas` is `undefined`,
else `Object.values` sorted by id. -/
def typesPass (st : GenSt) : Except GenError GenSt :=
  match st.table with
  | none => pure st
  | some tbl => typesLoop st.table st (List.insertionSort schemaIdLe (tbl.map Prod.snd))

structure GenResult where
  decls : List Decl
  table : Option (List (String × JsonSchema))
  needsEnc : Bool
  needsDec : Bool

/-- `assert(this.#schema.field)` on an optional string field: the `assert`
from `deps.ts` tests JS truthiness, so the assert fires both when the field
is `undefined` and when it is the (falsy) empty string. -/
def assertTruthy : Option String → Except GenError String
  | none => .error (.assertionError "")
  | some s => if s = "" then .error (.assertionError "") else .ok s

/-- ASCII letter (the scheme characters accepted by the base-URL model). -/
def isAlphaB (c : Char) : Bool := isLowerB c || isUpperB c

/-- Scans `scheme "://" rest`: accepts when the scheme seen so far (`acc`)
is a nonempty run of letters and a nonempty `rest` follows `"://"`. -/
def urlBaseOkGo : List Char → List Char → Bool
  | acc, ':' :: '/' :: '/' :: rest => !acc.isEmpty && !rest.isEmpty
  | acc, c :: rest => isAlphaB c && urlBaseOkGo (c :: acc) rest
  | _, [] => false

/-- `new URL(path, base)` succeeding (WHATWG URL — a platform built-in, not
code of this repository).  Modelled at the granularity the generator relies
on: the constructor succeeds iff the base is an absolute hierarchical URL
`<letters>://<nonempty>` (every Discovery `rootUrl` has this shape, e.g.
`https://host/`), and resolving the plain relative `servicePath` against
such a base is modelled as always succeeding. -/
def newUrlOk (path base : String) : Bool := urlBaseOkGo [] base.data

/-- `new Generator(schema, selfUrl).generate()` (constructor lines 104-119,
`generate` lines 121-174, `#writePrimary` lines 321-354) at declaration
granularity.  `selfUrl` only appears in the emitted header text.  Error
order follows the source: the constructor's truthiness asserts on `name`
and `title`, then inside `#writePrimary` the truthiness assert on `rootUrl`
followed by `new URL(servicePath ?? "", rootUrl)` (lines 333-337, a JS
`TypeError: Invalid URL` when the base does not parse) — all before any
method is written.  The base64 prelude order follows the source: decoder
first, then encoder. -/
def generateCore (d : RestDescription) (selfUrl : String) :
    Except GenError GenResult := do
  let methods := sortedMethods d
  let nm ← assertTruthy d.name
  let _ ← assertTruthy d.title
  let primaryNm := primaryName nm (splitOnSpace (d.title.getD ""))
  let _ ← assertTruthy d.rootUrl
  if !newUrlOk (d.servicePath.getD "") (d.rootUrl.getD "") then
    throw (GenError.typeError "Invalid URL")
  let st0 : GenSt := ⟨d.schemas, false, false, []⟩
  let st1 ← methodsPass primaryNm st0 methods
  let st2 ← typesPass st1
  pure ⟨[Decl.header, Decl.imports, Decl.classDecl primaryNm] ++ st2.decls
          ++ (if st2.needsDec then [Decl.base64DecoderFn] else [])
          ++ (if st2.needsEnc then [Decl.base64EncoderFn] else []),
        st2.table, st2.needsEnc, st2.needsDec⟩

def generate (d : RestDescription) (selfUrl : String) : Except GenError (List Decl) :=
  (generateCore d selfUrl).map GenResult.decls

/-- One run of `generate(schema, selfUrl)`.  The generator is synchronous
and effect-free apart from its own writer state, so a run is fully
determined by its input; the relation makes "two runs" expressible. -/
inductive GenerateRun : RestDescription → String → Except GenError (List Decl) → Prop where
  | run (d : RestDescription) (u : String) : GenerateRun d u (generate d u)

/-! ## Textual model: query-string guards (`#writeMethod` lines 455-478)

`CodeBlockWriter` is an external utility; `block(cb)` opens ` {`, writes the
callback on fresh lines, and closes with `}` (indentation spaces omitted —
no claim concerns them).  `quote` wraps in double quotes (the identifiers at
issue contain no characters needing escapes).
-/

def quoteStr (s : String) : String := "\"" ++ s ++ "\""

/-- `#writeIndex` (lines 366-375): a bracketed quoted string for identifiers
containing `.`, a plain `.ident` member access otherwise. -/
def writeIndexStr (ident : String) : String :=
  if ident.data.contains '.' then "[" ++ quoteStr ident ++ "]" else "." ++ ident

def blockStr (header body : String) : String :=
  header ++ " \x7b\n" ++ body ++ "\n\x7d"

/-- The query-parameter guard emitted for one `[name, schema]` entry
(lines 455-478): `if (opts<index> !== undefined) { ... }`, iterating with
`for (const ${name} of opts.${name})` when `schema.repeated` is set. -/
def writeQueryGuard (name : String) (repeated : Bool) : String :=
  blockStr ("if (opts" ++ writeIndexStr name ++ " !== undefined)")
    (if repeated then
      blockStr ("for (const " ++ name ++ " of opts." ++ name ++ ")")
        ("url.searchParams.append(" ++ quoteStr name ++ ", String(" ++ name ++ "));")
    else
      "url.searchParams.append(" ++ quoteStr name ++ ", String(opts"
        ++ writeIndexStr name ++ "));")

/-! ## Textual model: doc comments (`#writeDocComment` lines 176-210) -/

/-- JS `\s` on the ASCII range. -/
def isWs (c : Char) : Bool := c = ' ' || c = '\t' || c = '\n' || c = '\r'

mutual

/-- `str.split(/\s+/)`: split at maximal whitespace runs; a leading or
trailing run contributes an empty piece, as in JS. -/
def splitWsGo (cur : List Char) : List Char → List (List Char)
  | [] => [cur.reverse]
  | c :: rest =>
    if isWs c then cur.reverse :: splitWsSkip rest else splitWsGo (c :: cur) rest

def splitWsSkip : List Char → List (List Char)
  | [] => [[]]
  | c :: rest => if isWs c then splitWsSkip rest else splitWsGo [c] rest

end

def splitWs (l : List Char) : List (List Char) := splitWsGo [] l

/-- JS `String.prototype.trim` (ASCII whitespace). -/
def trimL (l : List Char) : List Char :=
  ((l.dropWhile isWs).reverse.dropWhile isWs).reverse

/-- `#escapeDocs` (lines 178-180): `s.replaceAll("*/", "*\\/")`, scanning
left to right without overlap. -/
def escapeDocsL : List Char → List Char
  | [] => []
  | [c] => [c]
  | c :: d :: rest =>
    if c = '*' ∧ d = '/' then '*' :: '\\' :: '/' :: escapeDocsL rest
    else c :: escapeDocsL (d :: rest)

/-- One step of the wrapping loop (lines 188-195): push the trimmed line and
restart from `word` when appending would exceed `maxLen`, else append
`" " + word`. -/
def wrapStep (maxLen : Int) (acc : List (List Char) × List Char) (word : List Char) :
    List (List Char) × List Char :=
  if (acc.2.length : Int) + word.length + 1 > maxLen then (acc.1 ++ [trimL acc.2], word)
  else (acc.1, acc.2 ++ ' ' :: word)

/-- The wrapped body lines of the doc comment for description `s` at the
writer's current indentation level (lines 183-196):
`maxLen = 80 - 3 - indent * 2`. -/
def docBodyLines (indentLevel : Nat) (s : List Char) : List (List Char) :=
  let maxLen : Int := 80 - 3 - 2 * (indentLevel : Int)
  let res := (splitWs (escapeDocsL s)).foldl (wrapStep maxLen) ([], [])
  res.1 ++ [trimL res.2]

structure DocParam where
  name : String
  description : Option String

def toL (s : String) : List Char := s.data

/-- All lines of the emitted doc comment (lines 197-209): `/**`, the body
lines as ` * ${line}`, then — when a parameter list was passed — ` *` and
an ` * @param ${name} ${description}` line for each parameter that has a
description, and finally ` */`. -/
def docCommentLines (indentLevel : Nat) (s : List Char)
    (params : Option (List DocParam)) : List (List Char) :=
  toL "/**" ::
    ((docBodyLines indentLevel s).map (fun l => toL " * " ++ l)
     ++ (match params with
         | some ps =>
           toL " *" :: ps.filterMap (fun p =>
             match p.description with
             | some dsc => some (toL " * @param " ++ p.name.data ++ ' ' :: dsc.data)
             | none => none)
         | none => [])
     ++ [toL " */"])

/-- `true` iff the string contains the two-character substring `*/`. -/
def hasSS : List Char → Bool
  | [] => false
  | [_] => false
  | c :: d :: rest => (c = '*' && d = '/') || hasSS (d :: rest)

/-! ## Concrete documents for the counterexamples and witnesses -/

/-- `{type: "string", format: "int64"}`. -/
def int64Node : JsonSchema :=
  .mk none (some "string") (some "int64") none none none none none
    false false false none none

/-- `{type: "string", format: "byte", readOnly: true}`. -/
def byteRONode : JsonSchema :=
  .mk none (some "string") (some "byte") none none none none none
    false true false none none

/-- An object schema with the given `id` and properties. -/
def objSchema (id : String) (props : List (String × JsonSchema)) : JsonSchema :=
  .mk (some id) (some "object") none none none (some props) none none
    false false false none none

/-- A plain string query parameter. -/
def queryStrNode : JsonSchema :=
  .mk none (some "string") none none none none none none
    false false false (some "query") none

/-- A document with only schemas. -/
def schemasOnlyDoc (schemas : List (String × JsonSchema)) : RestDescription :=
  ⟨some "mini", some "Mini API", none, none, some "https://mini/", none,
   none, some schemas⟩

/-- Two schemas under distinct keys sharing the id `"Z"`: `A` requires
conversion, `B` does not. -/
def dupIdA : JsonSchema := objSchema "Z" [("x", int64Node)]

def dupIdB : JsonSchema := objSchema "Z" []

def dupIdDoc : RestDescription := schemasOnlyDoc [("A", dupIdA), ("B", dupIdB)]

/-- The readOnly-byte schema: deserialization uses `decodeBase64` while the
serializer skips the `readOnly` property, so only the decoder is needed. -/
def fooROSchema : JsonSchema := objSchema "Foo" [("a", int64Node), ("b", byteRONode)]

def fooRODoc : RestDescription := schemasOnlyDoc [("Foo", fooROSchema)]

/-- Cyclic schema table `A -> B -> A`, each node also carrying an `int64`
field. -/
def cycA : JsonSchema :=
  .mk (some "A") (some "object") none none none
    (some [("b", refNode "B"), ("x", int64Node)]) none none false false false none none

def cycB : JsonSchema :=
  .mk (some "B") (some "object") none none none
    (some [("a", refNode "A")]) none none false false false none none

def cycTable : List (String × JsonSchema) := [("A", cycA), ("B", cycB)]

def cycDoc : RestDescription := schemasOnlyDoc cycTable

/-- A method with no parameters. -/
def bareMethod : RestMethod := ⟨some "things", some "GET", none, none, none, none⟩

/-- Resource tree producing the colliding methods `foo.barBaz` and
`foo.bar.baz`. -/
def collideResource : RestResource :=
  .mk (some [("barBaz", bareMethod)])
    (some [("bar", RestResource.mk (some [("baz", bareMethod)]) none)])

def collideDoc : RestDescription :=
  ⟨some "mini", some "Mini API", none, none, some "https://mini/", none,
   some [("foo", collideResource)], none⟩

/-- A method with unsorted path and query parameters of every location kind
(the `"body"` one is ignored by the flattener). -/
def pathStrNode : JsonSchema :=
  .mk none (some "string") none none none none none none
    true false false (some "path") none

def bodyLocNode : JsonSchema :=
  .mk none (some "string") none none none none none none
    false false false (some "body") none

def manyParamsMethod : RestMethod :=
  ⟨some "things/p", some "GET", none,
   some [("zq", queryStrNode), ("bp", pathStrNode), ("aq", queryStrNode),
         ("ign", bodyLocNode), ("ap", pathStrNode)], none, none⟩

def manyParamsDoc : RestDescription :=
  ⟨some "mini", some "Mini API", none, none, some "https://mini/", none,
   some [("things", RestResource.mk (some [("get", manyParamsMethod)]) none)], none⟩

/-- The declaration list `generate dupIdDoc` produces (checked by `rfl`
below): the entry `("A", dupIdA)` drives emission of the codec pair for id
`"Z"`, while `("B", dupIdB)` re-emits only the interface. -/
def dupIdDecls : List Decl :=
  [Decl.header, Decl.imports, Decl.classDecl "Mini",
   Decl.interfaceDecl "Z", Decl.serializeFn "Z", Decl.deserializeFn "Z",
   Decl.interfaceDecl "Z"]

/-- The declaration list `generate fooRODoc` produces (checked by `rfl`
below): one interface, one codec pair, and the base64 decoder — but no
encoder, because the serializer skips the `readOnly` byte property. -/
def fooRODecls : List Decl :=
  [Decl.header, Decl.imports, Decl.classDecl "Mini",
   Decl.interfaceDecl "Foo", Decl.serializeFn "Foo", Decl.deserializeFn "Foo",
   Decl.base64DecoderFn]

/-- A "good" name-path segment: nonempty, all lowercase ASCII letters. -/
def lowerSeg (l : List Char) : Prop := l ≠ [] ∧ ∀ c ∈ l, isLowerB c = true

/-- Empty, or starting with an uppercase ASCII letter — the shape of
`pascalCaseL` output on good segments, used to recover the boundaries. -/
def headUpperOrNil (l : List Char) : Prop :=
  l = [] ∨ ∃ c cs, l = c :: cs ∧ isUpperB c = true

theorem toNat_upChar_of_lower {c : Char} (h : isLowerB c = true) :
    (upChar c).toNat = c.toNat - 32 := by
  simp only [isLowerB, Bool.and_eq_true, decide_eq_true_eq] at h
  rw [upChar, dif_pos h]
  simp only [Char.ofNatAux, Char.toNat, UInt32.toNat, BitVec.toNat_ofNatLt]

theorem upChar_isUpper_of_lower {c : Char} (h : isLowerB c = true) :
    isUpperB (upChar c) = true := by
  have h2 := toNat_upChar_of_lower h
  simp only [isLowerB, Bool.and_eq_true, decide_eq_true_eq] at h
  simp only [isUpperB, Bool.and_eq_true, decide_eq_true_eq, h2]
  omega

theorem not_upper_of_lower {c : Char} (h : isLowerB c = true) : isUpperB c = false := by
  simp only [isLowerB, Bool.and_eq_true, decide_eq_true_eq] at h
  simp only [isUpperB, Bool.and_eq_false_iff, decide_eq_false_iff_not]
  omega

theorem char_eq_of_toNat_eq {c d : Char} (h : c.toNat = d.toNat) : c = d := by
  apply Char.eq_of_val_eq
  simp only [Char.toNat, UInt32.toNat] at h
  cases c with
  | mk v hv =>
    cases d with
    | mk w hw =>
      cases v; cases w
      exact congrArg UInt32.mk (BitVec.eq_of_toNat_eq h)

theorem upChar_inj_of_lower {c d : Char} (hc : isLowerB c = true) (hd : isLowerB d = true)
    (h : upChar c = upChar d) : c = d := by
  have h1 := toNat_upChar_of_lower hc
  have h2 := toNat_upChar_of_lower hd
  simp only [isLowerB, Bool.and_eq_true, decide_eq_true_eq] at hc hd
  apply char_eq_of_toNat_eq
  have := congrArg Char.toNat h
  omega

theorem strLeL_total (a b : List Char) : strLeL a b = true ∨ strLeL b a = true := by
  induction a generalizing b with
  | nil => left; rfl
  | cons x xs ih =>
    cases b with
    | nil => right; rfl
    | cons y ys =>
      simp only [strLeL]
      rcases Nat.lt_trichotomy x.toNat y.toNat with h | h | h
      · left; simp [h]
      · have h1 : ¬ x.toNat < y.toNat := by omega
        have h2 : ¬ y.toNat < x.toNat := by omega
        simpa [h1, h2] using ih ys
      · right; simp [h]

theorem strLeL_trans {a b c : List Char} (h1 : strLeL a b = true) (h2 : strLeL b c = true) :
    strLeL a c = true := by
  induction a generalizing b c with
  | nil => rfl
  | cons x xs ih =>
    cases b with
    | nil => simp [strLeL] at h1
    | cons y ys =>
      cases c with
      | nil => simp [strLeL] at h2
      | cons z zs =>
        simp only [strLeL] at h1 h2 ⊢
        by_cases hxy : x.toNat < y.toNat <;> by_cases hyz : y.toNat < z.toNat
        · simp [show x.toNat < z.toNat by omega]
        · simp only [hyz, if_false] at h2
          by_cases hzy : z.toNat < y.toNat
          · simp [hzy] at h2
          · simp [show x.toNat < z.toNat by omega]
        · simp only [hxy, if_false] at h1
          by_cases hyx : y.toNat < x.toNat
          · simp [hyx] at h1
          · simp [show x.toNat < z.toNat by omega]
        · simp only [hxy, if_false] at h1
          by_cases hyx : y.toNat < x.toNat
          · simp [hyx] at h1
          · simp only [hyx, if_false] at h1
            simp only [hyz, if_false] at h2
            by_cases hzy : z.toNat < y.toNat
            · simp [hzy] at h2
            · simp only [hzy, if_false] at h2
              have hxz : ¬ x.toNat < z.toNat := by omega
              have hzx : ¬ z.toNat < x.toNat := by omega
              simp only [hxz, hzx, if_false]
              exact ih h1 h2

instance : IsTotal (String × JsonSchema) paramLe :=
  ⟨fun a b => strLeL_total a.1.data b.1.data⟩

instance : IsTrans (String × JsonSchema) paramLe :=
  ⟨fun _ _ _ h h' => strLeL_trans h h'⟩

instance : IsTotal MethodRec mrecLe :=
  ⟨fun a b => strLeL_total a.camelCaseName.data b.camelCaseName.data⟩

instance : IsTrans MethodRec mrecLe :=
  ⟨fun _ _ _ h h' => strLeL_trans h h'⟩

instance : IsTotal JsonSchema schemaIdLe :=
  ⟨fun a b => strLeL_total (a.id.getD "").data (b.id.getD "").data⟩

instance : IsTrans JsonSchema schemaIdLe :=
  ⟨fun _ _ _ h h' => strLeL_trans h h'⟩

theorem isPrefixOf_length_le {l r : List Char} (h : List.isPrefixOf l r = true) :
    l.length ≤ r.length := by
  induction l generalizing r with
  | nil => simp
  | cons c cs ih =>
    cases r with
    | nil => simp [List.isPrefixOf] at h
    | cons d ds =>
      simp only [List.isPrefixOf, Bool.and_eq_true] at h
      simpa using ih h.2

theorem lowerMatchAt_length_le {name w : List Char} {i : Nat} (hi : i ≤ name.length)
    (h : lowerMatchAt name w i = true) : i + w.length ≤ name.length := by
  have := isPrefixOf_length_le h
  simp only [lowerL, List.length_map, List.length_drop] at this
  omega

theorem spliceAt_length {name w : List Char} {i j : Nat} (hij : j = i + w.length)
    (hj : j ≤ name.length) : (spliceAt name w i j).length = name.length := by
  simp only [spliceAt, List.length_append, List.length_take, List.length_drop]
  omega

/-- The fuel is irrelevant as long as it exceeds the remaining positions. -/
theorem primaryNameGo_fuel_irrelevant :
    ∀ (f1 f2 : Nat) (words : List (List Char)) (name : List Char) (i : Nat),
    name.length - i < f1 → name.length - i < f2 →
    primaryNameGo f1 words name i = primaryNameGo f2 words name i := by
  intro f1
  induction f1 with
  | zero =>
    intro f2 words name i h1 h2
    exact absurd h1 (Nat.not_lt_zero _)
  | succ f1 ih =>
    intro f2 words name i h1 h2
    cases f2 with
    | zero => exact absurd h2 (Nat.not_lt_zero _)
    | succ f2 =>
      simp only [primaryNameGo]
      by_cases hi : i < name.length
      · simp only [hi, if_true]
        cases hfind : words.find? (fun w => lowerMatchAt name w i) with
        | some w =>
          have hp : lowerMatchAt name w i = true := by
            simpa using List.find?_some hfind
          have hle := lowerMatchAt_length_le (Nat.le_of_lt hi) hp
          have hlen : (spliceAt name w i (i + w.length)).length = name.length :=
            spliceAt_length rfl hle
          dsimp only
          by_cases hj : i + w.length = i
          · simp only [hj, if_pos rfl]
            rw [hj] at hlen
            exact ih f2 words _ _ (by rw [hlen]; omega) (by rw [hlen]; omega)
          · rw [if_neg hj, if_neg hj]
            exact ih f2 words _ _ (by rw [hlen]; omega) (by rw [hlen]; omega)
        | none =>
          exact ih f2 words name (i + 1) (by omega) (by omega)
      · simp [hi]

/-! ## Supporting lemmas about the analyzer's measure -/

theorem lookup_mem {r : String} {l : List (String × JsonSchema)} {v : JsonSchema}
    (h : l.lookup r = some v) : (r, v) ∈ l := by
  induction l with
  | nil => simp [List.lookup] at h
  | cons p rest ih =>
    obtain ⟨k, w⟩ := p
    rw [List.lookup] at h
    by_cases he : r == k
    · rw [he] at h
      injection h with h
      have hr : r = k := by simpa using he
      subst hr
      subst h
      exact List.mem_cons_self _ _
    · rw [(by simpa using he : (r == k) = false)] at h
      exact List.mem_cons_of_mem _ (ih h)

theorem lookup_mem_keys {r : String} {l : List (String × JsonSchema)} {v : JsonSchema}
    (h : l.lookup r = some v) : r ∈ l.map Prod.fst := by
  have := lookup_mem h
  exact List.mem_map.mpr ⟨(r, v), this, rfl⟩

theorem mem_maxSchemaSizeAux {p : String × JsonSchema} {l : List (String × JsonSchema)}
    (h : p ∈ l) : schemaSize p.2 ≤ maxSchemaSizeAux l := by
  induction l with
  | nil => cases h
  | cons q rest ih =>
    rcases List.mem_cons.mp h with h | h
    · subst h
      simp [maxSchemaSizeAux]
    · calc schemaSize p.2 ≤ maxSchemaSizeAux rest := ih h
        _ ≤ maxSchemaSizeAux (q :: rest) := by simp [maxSchemaSizeAux]

theorem filter_notcontains_anti {v v' : List String} (hsub : v ⊆ v') :
    ∀ keys : List String,
    (keys.filter (fun k => !(v'.contains k))).length ≤
      (keys.filter (fun k => !(v.contains k))).length := by
  intro keys
  induction keys with
  | nil => simp
  | cons k rest ih =>
    by_cases hv : v.contains k
    · have hv' : v'.contains k = true := by
        have hm : k ∈ v := by simpa using hv
        simpa using hsub hm
      rw [List.filter_cons, List.filter_cons]
      simp only [hv, hv', Bool.not_true, if_neg (by simp : ¬ false = true)]
      exact ih
    · rw [List.filter_cons, List.filter_cons]
      simp only [(by simpa using hv : v.contains k = false), Bool.not_false,
        if_pos rfl]
      by_cases hv' : v'.contains k
      · simp only [hv', Bool.not_true, if_neg (by simp : ¬ false = true)]
        calc (rest.filter (fun x => !(v'.contains x))).length
            ≤ (rest.filter (fun x => !(v.contains x))).length := ih
          _ ≤ (rest.filter (fun x => !(v.contains x))).length + 1 := by omega
      · simp only [(by simpa using hv' : v'.contains k = false), Bool.not_false,
          if_pos rfl, List.length_cons]
        exact Nat.succ_le_succ ih

theorem unvisited_anti {schemas : Option (List (String × JsonSchema))}
    {v v' : List String} (hsub : v ⊆ v') :
    unvisitedCount schemas v' ≤ unvisitedCount schemas v :=
  filter_notcontains_anti hsub (keysOf schemas)

theorem filter_notcontains_cons_lt {r : String} {v : List String} (hr : r ∉ v) :
    ∀ keys : List String, r ∈ keys →
    (keys.filter (fun k => !((r :: v).contains k))).length <
      (keys.filter (fun k => !(v.contains k))).length := by
  intro keys
  induction keys with
  | nil => intro h; cases h
  | cons k rest ih =>
    intro hmem
    have hanti : (rest.filter (fun x => !((r :: v).contains x))).length ≤
        (rest.filter (fun x => !(v.contains x))).length :=
      filter_notcontains_anti (List.subset_cons_self r v) rest
    by_cases hk : k = r
    · subst hk
      have h1 : ((k :: v).contains k) = true := by simp
      have h2 : (v.contains k) = false := by simpa using hr
      rw [List.filter_cons, List.filter_cons]
      simp only [h1, h2, Bool.not_true, Bool.not_false]
      simp only [Bool.false_eq_true, if_false, if_true, List.length_cons]
      omega
    · have hmem' : r ∈ rest := by
        rcases List.mem_cons.mp hmem with h | h
        · exact absurd h.symm hk
        · exact h
      have hcontains : ((r :: v).contains k) = (v.contains k) := by
        simp only [List.contains_cons]
        have hne : (k == r) = false := by simpa using hk
        simp [hne]
      by_cases hv : v.contains k
      · rw [List.filter_cons, List.filter_cons]
        simp only [hcontains, hv, Bool.not_true, if_neg (by simp : ¬ false = true)]
        exact ih hmem'
      · rw [List.filter_cons, List.filter_cons]
        simp only [hcontains, (by simpa using hv : v.contains k = false),
          Bool.not_false, if_pos rfl, List.length_cons]
        exact Nat.succ_lt_succ (ih hmem')

theorem unvisited_cons_lt {schemas : Option (List (String × JsonSchema))}
    {r : String} {v : List String} (hr : r ∉ v) (hk : r ∈ keysOf schemas) :
    unvisitedCount schemas (r :: v) < unvisitedCount schemas v :=
  filter_notcontains_cons_lt hr (keysOf schemas) hk

/-- The analyzer only ever grows the visited set (the JS code passes one
mutable `Set` down the whole query). -/
theorem isConvFuel_subset (schemas : Option (List (String × JsonSchema))) :
    ∀ fuel : Nat,
    (∀ t visited b v', isConvFuel schemas fuel t visited = some (.ok (b, v')) →
      visited ⊆ v') ∧
    (∀ ps visited b v', isConvPropsFuel schemas fuel ps visited = some (.ok (b, v')) →
      visited ⊆ v') := by
  intro fuel
  induction fuel with
  | zero =>
    constructor <;> intro x visited b v' h <;>
      simp [isConvFuel, isConvPropsFuel] at h
  | succ fuel ih =>
    constructor
    · intro t visited b v' h
      rw [isConvFuel] at h
      split at h
      · simp only [Option.some.injEq, Except.ok.injEq, Prod.mk.injEq] at h
        exact h.2 ▸ List.Subset.refl visited
      · split at h
        · exact ih.1 _ _ _ _ h
        · simp at h
      · simp only [Option.some.injEq, Except.ok.injEq, Prod.mk.injEq] at h
        exact h.2 ▸ List.Subset.refl visited
      · simp only [Option.some.injEq, Except.ok.injEq, Prod.mk.injEq] at h
        exact h.2 ▸ List.Subset.refl visited
      · simp only [Option.some.injEq, Except.ok.injEq, Prod.mk.injEq] at h
        exact h.2 ▸ List.Subset.refl visited
      · simp only [Option.some.injEq, Except.ok.injEq, Prod.mk.injEq] at h
        exact h.2 ▸ List.Subset.refl visited
      · split at h
        · exact ih.1 _ _ _ _ h
        · split at h
          · exact ih.2 _ _ _ _ h
          · simp only [Option.some.injEq, Except.ok.injEq, Prod.mk.injEq] at h
            exact h.2 ▸ List.Subset.refl visited
      · split at h
        · split at h
          · simp only [Option.some.injEq, Except.ok.injEq, Prod.mk.injEq] at h
            exact h.2 ▸ List.Subset.refl visited
          · split at h
            · simp at h
            · split at h
              · exact List.Subset.trans (List.subset_cons_self _ _) (ih.1 _ _ _ _ h)
              · simp at h
        · simp only [Option.some.injEq, Except.ok.injEq, Prod.mk.injEq] at h
          exact h.2 ▸ List.Subset.refl visited
    · intro ps visited b v' h
      match ps with
      | [] =>
        rw [isConvPropsFuel] at h
        simp only [Option.some.injEq, Except.ok.injEq, Prod.mk.injEq] at h
        exact h.2 ▸ List.Subset.refl visited
      | (nm, p) :: rest =>
        rw [isConvPropsFuel] at h
        split at h
        · exact ih.2 _ _ _ _ h
        · split at h
          · simp at h
          · simp at h
          · rename_i heq
            simp only [Option.some.injEq, Except.ok.injEq, Prod.mk.injEq] at h
            exact h.2 ▸ ih.1 _ _ _ _ heq
          · rename_i heq
            exact List.Subset.trans (ih.1 _ _ _ _ heq) (ih.2 _ _ _ _ h)

/-- A successful analyzer run is stable under extra fuel. -/
theorem isConvFuel_mono (schemas : Option (List (String × JsonSchema))) :
    ∀ fuel : Nat,
    (∀ fuel' t visited r, fuel ≤ fuel' →
      isConvFuel schemas fuel t visited = some r →
      isConvFuel schemas fuel' t visited = some r) ∧
    (∀ fuel' ps visited r, fuel ≤ fuel' →
      isConvPropsFuel schemas fuel ps visited = some r →
      isConvPropsFuel schemas fuel' ps visited = some r) := by
  intro fuel
  induction fuel with
  | zero =>
    constructor <;> intro fuel' x visited r hle h <;>
      simp [isConvFuel, isConvPropsFuel] at h
  | succ fuel ih =>
    constructor
    · intro fuel' t visited r hle h
      match fuel', hle with
      | fuel' + 1, hle =>
        have hle' : fuel ≤ fuel' := Nat.le_of_succ_le_succ hle
        rw [isConvFuel] at h ⊢
        split at h
        · exact h
        · split at h
          · exact ih.1 fuel' _ _ _ hle' h
          · exact h
        · exact h
        · exact h
        · exact h
        · exact h
        · split at h
          · exact ih.1 fuel' _ _ _ hle' h
          · split at h
            · exact ih.2 fuel' _ _ _ hle' h
            · exact h
        · split at h
          · split at h
            · rename_i hmem
              rw [if_pos hmem]
              exact h
            · rename_i hmem
              rw [if_neg hmem]
              split at h
              · exact h
              · split at h
                · exact ih.1 fuel' _ _ _ hle' h
                · exact h
          · exact h
    · intro fuel' ps visited r hle h
      match fuel', hle with
      | fuel' + 1, hle =>
        have hle' : fuel ≤ fuel' := Nat.le_of_succ_le_succ hle
        match ps with
        | [] =>
          rw [isConvPropsFuel] at h ⊢
          exact h
        | (nm, p) :: rest =>
          rw [isConvPropsFuel] at h ⊢
          split at h
          · rename_i hro
            rw [if_pos hro]
            exact ih.2 fuel' _ _ _ hle' h
          · rename_i hro
            rw [if_neg hro]
            split at h
            · simp at h
            · rename_i heq
              rw [ih.1 fuel' _ _ _ hle' heq]
              exact h
            · rename_i heq
              rw [ih.1 fuel' _ _ _ hle' heq]
              exact h
            · rename_i heq
              rw [ih.1 fuel' _ _ _ hle' heq]
              exact ih.2 fuel' _ _ _ hle' h

theorem schemaSize_mk (i ty f : Option String) (e : Option (List String))
    (itf : Option JsonSchema) (pr : Option (List (String × JsonSchema)))
    (ad : Option JsonSchema) (rf : Option String) (rq ro rp : Bool)
    (lo dsc : Option String) :
    schemaSize (.mk i ty f e itf pr ad rf rq ro rp lo dsc) =
      (match itf with | some s => schemaSize s | none => 0) +
      (match ad with | some s => schemaSize s | none => 0) +
      (match pr with | some l => schemaSizeProps l | none => 0) + 1 := by
  rw [schemaSize.eq_def]

theorem schemaSize_items_lt {t it : JsonSchema} (h : t.items = some it) :
    schemaSize it < schemaSize t := by
  cases t with
  | mk i ty f e itf pr ad rf rq ro rp lo dsc =>
    simp only [JsonSchema.items] at h
    subst h
    simp only [schemaSize_mk]
    omega

theorem schemaSize_addl_lt {t ap : JsonSchema} (h : t.additionalProperties = some ap) :
    schemaSize ap < schemaSize t := by
  cases t with
  | mk i ty f e itf pr ad rf rq ro rp lo dsc =>
    simp only [JsonSchema.additionalProperties] at h
    subst h
    simp only [schemaSize_mk]
    omega

theorem schemaSizeProps_lt {t : JsonSchema} {ps : List (String × JsonSchema)}
    (h : t.properties = some ps) : schemaSizeProps ps < schemaSize t := by
  cases t with
  | mk i ty f e itf pr ad rf rq ro rp lo dsc =>
    simp only [JsonSchema.properties] at h
    subst h
    simp only [schemaSize_mk]
    omega

/-- `convFuel` units of fuel always produce an answer: the measure
`(unvisited names) * (max schema size + 2) + node size` strictly decreases
along every recursive call of the analyzer. -/
theorem isConvFuel_suff (schemas : Option (List (String × JsonSchema))) :
    ∀ fuel : Nat,
    (∀ t visited, convFuel schemas t visited ≤ fuel →
      (isConvFuel schemas fuel t visited).isSome = true) ∧
    (∀ ps visited, convFuelProps schemas ps visited ≤ fuel →
      (isConvPropsFuel schemas fuel ps visited).isSome = true) := by
  intro fuel
  induction fuel using Nat.strong_induction_on with
  | _ fuel ih =>
    match fuel with
    | 0 =>
      constructor
      · intro t visited hb
        simp only [convFuel] at hb
        omega
      · intro ps visited hb
        simp only [convFuelProps] at hb
        omega
    | k + 1 =>
      have hk : k < k + 1 := Nat.lt_succ_self k
      constructor
      · intro t visited hb
        simp only [convFuel] at hb
        rw [isConvFuel]
        split
        · simp
        · split
          · rename_i hty hit
            refine (ih k hk).1 _ _ ?_
            have := schemaSize_items_lt hit
            simp only [convFuel]
            omega
          · simp
        · simp
        · simp
        · simp
        · simp
        · split
          · rename_i hty had
            refine (ih k hk).1 _ _ ?_
            have := schemaSize_addl_lt had
            simp only [convFuel]
            omega
          · split
            · rename_i hty had hpr
              refine (ih k hk).2 _ _ ?_
              have := schemaSizeProps_lt hpr
              simp only [convFuelProps]
              omega
            · simp
        · split
          · rename_i r hrf
            split
            · simp
            · rename_i hmem
              split
              · simp
              · rename_i tbl
                split
                · rename_i s hlk
                  refine (ih k hk).1 _ _ ?_
                  have hkeys : r ∈ keysOf (some tbl) := by
                    simpa [keysOf] using lookup_mem_keys hlk
                  have hUlt := unvisited_cons_lt hmem hkeys
                  have hsz : schemaSize s ≤ maxSchemaSize (some tbl) := by
                    simpa [maxSchemaSize] using mem_maxSchemaSizeAux (lookup_mem hlk)
                  simp only [convFuel]
                  have hmul : (unvisitedCount (some tbl) (r :: visited) + 1) *
                      (maxSchemaSize (some tbl) + 2) ≤
                      unvisitedCount (some tbl) visited * (maxSchemaSize (some tbl) + 2) :=
                    Nat.mul_le_mul_right _ hUlt
                  rw [Nat.succ_mul] at hmul
                  omega
                · simp
          · simp
      · intro ps visited hb
        match ps with
        | [] =>
          rw [isConvPropsFuel]
          simp
        | (nm, p) :: rest =>
          simp only [convFuelProps] at hb
          rw [isConvPropsFuel]
          split
          · refine (ih k hk).2 _ _ ?_
            simp only [convFuelProps, schemaSizeProps]
            simp only [schemaSizeProps] at hb
            omega
          · have hsome : (isConvFuel schemas k p visited).isSome = true := by
              refine (ih k hk).1 _ _ ?_
              simp only [convFuel]
              simp only [schemaSizeProps] at hb
              omega
            obtain ⟨rr, hrr⟩ := Option.isSome_iff_exists.mp hsome
            rw [hrr]
            match rr with
            | .error e => simp
            | .ok (true, v') => simp
            | .ok (false, v') =>
              refine (ih k hk).2 _ _ ?_
              have hsub : visited ⊆ v' := (isConvFuel_subset schemas k).1 _ _ _ _ hrr
              have hU := @unvisited_anti schemas _ _ hsub
              simp only [convFuelProps]
              simp only [schemaSizeProps] at hb
              have hmul : unvisitedCount schemas v' * (maxSchemaSize schemas + 2) ≤
                  unvisitedCount schemas visited * (maxSchemaSize schemas + 2) :=
                Nat.mul_le_mul_right _ hU
              omega

/-- C2. Cycle-safe analyzer termination: `#isConversionRequired` terminates
on every type node over every schema table — in particular on cyclic schema
graphs, and a fortiori on every document whose `$ref` names all resolve —
because each top-level query threads its own visited set and a `$ref` to a
name already in the visited set returns `false` at once (second conjunct).
Termination is expressed by fuel stabilization: some fuel level (and every
level above it) yields a definite result. -/
theorem isConversionRequired_terminates
    (schemas : Option (List (String × JsonSchema))) (t : JsonSchema)
    (visited : List String) :
    (∃ n r, ∀ m, n ≤ m → isConvFuel schemas m t visited = some r) ∧
    (∀ rname, t.type' = none → t.ref = some rname → rname ∈ visited →
      ∀ fuel, isConvFuel schemas (fuel + 1) t visited = some (.ok (false, visited))) := by
  constructor
  · have hsome := (isConvFuel_suff schemas (convFuel schemas t visited)).1 t visited
      (Nat.le_refl _)
    obtain ⟨r, hr⟩ := Option.isSome_iff_exists.mp hsome
    exact ⟨convFuel schemas t visited, r,
      fun m hm => (isConvFuel_mono schemas _).1 m t visited r hm hr⟩
  · intro rname hty hrf hmem fuel
    rw [isConvFuel]
    rw [hty, hrf]
    simp only [if_pos hmem]

/-- Witness for C2 on the cyclic table `A -> B -> A`: a `$ref` back to the
already-visited name `A` returns `false` immediately. -/
theorem isConversionRequired_terminates_witness :
    isConvFuel (some cycTable) 5 (refNode "A") ["A"] =
      some (.ok (false, ["A"])) :=
  (isConversionRequired_terminates (some cycTable) (refNode "A") ["A"]).2
    "A" rfl rfl (by decide) 4

theorem except_bind_ok {α β ε : Type} (a : α) (f : α → Except ε β) :
    (Except.ok a >>= f) = f a := rfl

theorem except_bind_error {α β ε : Type} (e : ε) (f : α → Except ε β) :
    ((Except.error e : Except ε α) >>= f) = Except.error e := rfl

theorem except_pure_eq {α ε : Type} (a : α) : (pure a : Except ε α) = Except.ok a := rfl

theorem except_throw_bind {α β ε : Type} (e : ε) (f : α → Except ε β) :
    ((throw e : Except ε α) >>= f) = Except.error e := rfl

theorem writeTypeCheck_ok {s : JsonSchema} {i : String}
    (h : writeTypeCheck s = .ok i) : s.id = some i ∧ s.type' = some "object" := by
  rw [writeTypeCheck] at h
  split at h
  · simp at h
  · rename_i j hj
    split at h
    · rename_i hty
      injection h with h
      exact ⟨h ▸ hj, hty⟩
    · simp at h

/-- Per-schema behaviour of the `#writeTypes` loop: declarations are only
appended (interface, serializer, deserializer), the two codec functions are
emitted exactly for the conversion-requiring schemas, and the base64 flags
accumulate the body writers' effects. -/
theorem typesLoop_decls (schemas : Option (List (String × JsonSchema))) :
    ∀ (l : List JsonSchema) (st res : GenSt),
    typesLoop schemas st l = .ok res →
    res.table = st.table ∧
    (∃ delta, res.decls = st.decls ++ delta ∧
      (∀ x ∈ delta, (∃ i, x = Decl.interfaceDecl i) ∨ (∃ i, x = Decl.serializeFn i) ∨
        (∃ i, x = Decl.deserializeFn i)) ∧
      (∀ i, Decl.serializeFn i ∈ delta ↔
        ∃ s ∈ l, s.id = some i ∧ isConversionRequiredE schemas s = .ok true) ∧
      (∀ i, Decl.deserializeFn i ∈ delta ↔
        ∃ s ∈ l, s.id = some i ∧ isConversionRequiredE schemas s = .ok true)) ∧
    (res.needsDec = true ↔ st.needsDec = true ∨
      ∃ s ∈ l, isConversionRequiredE schemas s = .ok true ∧
        deserFlagsE schemas s = .ok true) ∧
    (res.needsEnc = true ↔ st.needsEnc = true ∨
      ∃ s ∈ l, isConversionRequiredE schemas s = .ok true ∧
        serFlagsE schemas s = .ok true) := by
  intro l
  induction l with
  | nil =>
    intro st res h
    rw [typesLoop] at h
    injection h with h
    subst h
    refine ⟨rfl, ⟨[], by simp, by simp, by simp, by simp⟩, by simp, by simp⟩
  | cons s rest ih =>
    intro st res h
    rw [typesLoop] at h
    cases hwt : writeTypeCheck s with
    | error e => rw [hwt, except_bind_error] at h; simp at h
    | ok i =>
      rw [hwt, except_bind_ok] at h
      cases hcv : isConversionRequiredE schemas s with
      | error e => rw [hcv, except_bind_error] at h; simp at h
      | ok conv =>
        rw [hcv, except_bind_ok] at h
        have hid := (writeTypeCheck_ok hwt).1
        cases conv with
        | true =>
          rw [if_pos rfl] at h
          cases hse : serFlagsE schemas s with
          | error e => rw [hse, except_bind_error] at h; simp at h
          | ok fe =>
            rw [hse, except_bind_ok] at h
            cases hde : deserFlagsE schemas s with
            | error e => rw [hde, except_bind_error] at h; simp at h
            | ok fd =>
              rw [hde, except_bind_ok, except_pure_eq, except_bind_ok] at h
              obtain ⟨htb, ⟨delta, hdecls, hshape, hser, hdeser⟩, hdec, henc⟩ :=
                ih _ _ h
              refine ⟨htb, ⟨[Decl.interfaceDecl i, Decl.serializeFn i,
                Decl.deserializeFn i] ++ delta, ?_, ?_, ?_, ?_⟩, ?_, ?_⟩
              · rw [hdecls]
                simp
              · intro x hx
                rcases List.mem_append.mp hx with hx | hx
                · simp only [List.mem_cons, List.not_mem_nil, or_false] at hx
                  rcases hx with hx | hx | hx
                  · exact Or.inl ⟨i, hx⟩
                  · exact Or.inr (Or.inl ⟨i, hx⟩)
                  · exact Or.inr (Or.inr ⟨i, hx⟩)
                · exact hshape x hx
              · intro j
                constructor
                · intro hj
                  rcases List.mem_append.mp hj with hj | hj
                  · simp only [List.mem_cons, List.not_mem_nil, or_false] at hj
                    rcases hj with hj | hj | hj
                    · exact absurd hj (by simp)
                    · injection hj with hj
                      refine ⟨s, List.mem_cons_self _ _, ?_, hcv⟩
                      rw [hid, hj]
                    · exact absurd hj (by simp)
                  · obtain ⟨s', hs', hidj, hcvj⟩ := (hser j).mp hj
                    exact ⟨s', List.mem_cons_of_mem _ hs', hidj, hcvj⟩
                · rintro ⟨s', hs', hidj, hcvj⟩
                  rcases List.mem_cons.mp hs' with hs' | hs'
                  · subst hs'
                    rw [hid] at hidj
                    injection hidj with hidj
                    subst hidj
                    simp
                  · exact List.mem_append.mpr (Or.inr ((hser j).mpr ⟨s', hs', hidj, hcvj⟩))
              · intro j
                constructor
                · intro hj
                  rcases List.mem_append.mp hj with hj | hj
                  · simp only [List.mem_cons, List.not_mem_nil, or_false] at hj
                    rcases hj with hj | hj | hj
                    · exact absurd hj (by simp)
                    · exact absurd hj (by simp)
                    · injection hj with hj
                      refine ⟨s, List.mem_cons_self _ _, ?_, hcv⟩
                      rw [hid, hj]
                  · obtain ⟨s', hs', hidj, hcvj⟩ := (hdeser j).mp hj
                    exact ⟨s', List.mem_cons_of_mem _ hs', hidj, hcvj⟩
                · rintro ⟨s', hs', hidj, hcvj⟩
                  rcases List.mem_cons.mp hs' with hs' | hs'
                  · subst hs'
                    rw [hid] at hidj
                    injection hidj with hidj
                    subst hidj
                    simp
                  · exact List.mem_append.mpr (Or.inr ((hdeser j).mpr ⟨s', hs', hidj, hcvj⟩))
              · rw [hdec]
                simp only [Bool.or_eq_true]
                constructor
                · rintro (⟨h1 | h1⟩ | ⟨s', hs', hc, hf⟩)
                  · exact Or.inl h1
                  · exact Or.inr ⟨s, List.mem_cons_self _ _, hcv, h1 ▸ hde⟩
                  · exact Or.inr ⟨s', List.mem_cons_of_mem _ hs', hc, hf⟩
                · rintro (h1 | ⟨s', hs', hc, hf⟩)
                  · exact Or.inl (Or.inl h1)
                  · rcases List.mem_cons.mp hs' with hs' | hs'
                    · subst hs'
                      rw [hde] at hf
                      injection hf with hf
                      exact Or.inl (Or.inr hf)
                    · exact Or.inr ⟨s', hs', hc, hf⟩
              · rw [henc]
                simp only [Bool.or_eq_true]
                constructor
                · rintro (⟨h1 | h1⟩ | ⟨s', hs', hc, hf⟩)
                  · exact Or.inl h1
                  · exact Or.inr ⟨s, List.mem_cons_self _ _, hcv, h1 ▸ hse⟩
                  · exact Or.inr ⟨s', List.mem_cons_of_mem _ hs', hc, hf⟩
                · rintro (h1 | ⟨s', hs', hc, hf⟩)
                  · exact Or.inl (Or.inl h1)
                  · rcases List.mem_cons.mp hs' with hs' | hs'
                    · subst hs'
                      rw [hse] at hf
                      injection hf with hf
                      exact Or.inl (Or.inr hf)
                    · exact Or.inr ⟨s', hs', hc, hf⟩
        | false =>
          rw [if_neg (by simp)] at h
          rw [except_pure_eq, except_bind_ok] at h
          obtain ⟨htb, ⟨delta, hdecls, hshape, hser, hdeser⟩, hdec, henc⟩ := ih _ _ h
          refine ⟨htb, ⟨Decl.interfaceDecl i :: delta, ?_, ?_, ?_, ?_⟩, ?_, ?_⟩
          · rw [hdecls]
            simp
          · intro x hx
            rcases List.mem_cons.mp hx with hx | hx
            · exact Or.inl ⟨i, hx⟩
            · exact hshape x hx
          · intro j
            constructor
            · intro hj
              rcases List.mem_cons.mp hj with hj | hj
              · cases hj
              · obtain ⟨s', hs', hidj, hcvj⟩ := (hser j).mp hj
                exact ⟨s', List.mem_cons_of_mem _ hs', hidj, hcvj⟩
            · rintro ⟨s', hs', hidj, hcvj⟩
              rcases List.mem_cons.mp hs' with hs' | hs'
              · subst hs'
                rw [hcv] at hcvj
                simp at hcvj
              · exact List.mem_cons_of_mem _ ((hser j).mpr ⟨s', hs', hidj, hcvj⟩)
          · intro j
            constructor
            · intro hj
              rcases List.mem_cons.mp hj with hj | hj
              · cases hj
              · obtain ⟨s', hs', hidj, hcvj⟩ := (hdeser j).mp hj
                exact ⟨s', List.mem_cons_of_mem _ hs', hidj, hcvj⟩
            · rintro ⟨s', hs', hidj, hcvj⟩
              rcases List.mem_cons.mp hs' with hs' | hs'
              · subst hs'
                rw [hcv] at hcvj
                simp at hcvj
              · exact List.mem_cons_of_mem _ ((hdeser j).mpr ⟨s', hs', hidj, hcvj⟩)
          · rw [hdec]
            constructor
            · rintro (h1 | ⟨s', hs', hc, hf⟩)
              · exact Or.inl h1
              · exact Or.inr ⟨s', List.mem_cons_of_mem _ hs', hc, hf⟩
            · rintro (h1 | ⟨s', hs', hc, hf⟩)
              · exact Or.inl h1
              · rcases List.mem_cons.mp hs' with hs' | hs'
                · subst hs'
                  rw [hcv] at hc
                  simp at hc
                · exact Or.inr ⟨s', hs', hc, hf⟩
          · rw [henc]
            constructor
            · rintro (h1 | ⟨s', hs', hc, hf⟩)
              · exact Or.inl h1
              · exact Or.inr ⟨s', List.mem_cons_of_mem _ hs', hc, hf⟩
            · rintro (h1 | ⟨s', hs', hc, hf⟩)
              · exact Or.inl h1
              · rcases List.mem_cons.mp hs' with hs' | hs'
                · subst hs'
                  rw [hcv] at hc
                  simp at hc
                · exact Or.inr ⟨s', hs', hc, hf⟩

/-- A successful `#writeMethod` appends exactly the method declaration and
never touches the base64-decoder flag. -/
theorem writeMethodM_ok {primaryNm : String} {st : GenSt} {m : MethodRec} {res : GenSt}
    (h : writeMethodM primaryNm st m = .ok res) :
    res.decls = st.decls ++ [Decl.methodDecl m.camelCaseName] ∧
    res.needsDec = st.needsDec := by
  rw [writeMethodM] at h
  cases hcp : checkPathParams m.pathParams with
  | error e => rw [hcp, except_bind_error] at h; simp at h
  | ok u =>
    rw [hcp, except_bind_ok] at h
    by_cases hq : m.queryParams.isEmpty
    · rw [if_pos hq, except_pure_eq, except_bind_ok] at h
      simp only [] at h
      cases hsl : serializeParamsLoop st.table (m.pathParams ++
          (match m.base.request with
           | some r => [("req", r)]
           | none => []) ++ []) st.needsEnc with
      | error e => rw [hsl, except_bind_error] at h; simp at h
      | ok enc =>
        rw [hsl, except_bind_ok] at h
        split at h
        · rw [show (throw (GenError.assertionError "") : Except GenError PUnit) =
              Except.error (GenError.assertionError "") from rfl, except_bind_error] at h
          simp at h
        · split at h
          · rw [show (throw (GenError.assertionError "") : Except GenError PUnit) =
                Except.error (GenError.assertionError "") from rfl, except_bind_error] at h
            simp at h
          · cases hrsp : m.base.response with
            | some resp =>
              rw [hrsp] at h
              simp only [except_pure_eq, except_bind_ok] at h
              cases hcv : isConversionRequiredE st.table resp with
              | error e => rw [hcv, except_bind_error] at h; simp at h
              | ok b =>
                try simp only [hcv, except_bind_ok, except_pure_eq] at h
                injection h with h
                subst h
                exact ⟨rfl, rfl⟩
            | none =>
              rw [hrsp] at h
              simp only [except_pure_eq, except_bind_ok] at h
              injection h with h
              subst h
              exact ⟨rfl, rfl⟩
    · rw [if_neg hq] at h
      cases htb : st.table with
      | none =>
        rw [htb] at h
        rw [except_throw_bind] at h
        simp at h
      | some tbl =>
        rw [htb] at h
        simp only [except_pure_eq, except_bind_ok] at h
        cases hsl : serializeParamsLoop
            (some (upsertSchema tbl (m.pascalCaseName ++ "Options")
              (mkOptionsSchema primaryNm m (m.pascalCaseName ++ "Options"))))
            (m.pathParams ++
              (match m.base.request with
               | some r => [("req", r)]
               | none => []) ++
              [("opts", refNode (m.pascalCaseName ++ "Options"))]) st.needsEnc with
        | error e => rw [hsl] at h; rw [except_bind_error] at h; simp at h
        | ok enc =>
          rw [hsl, except_bind_ok] at h
          split at h
          · rw [show (throw (GenError.assertionError "") : Except GenError PUnit) =
                Except.error (GenError.assertionError "") from rfl, except_bind_error] at h
            simp at h
          · split at h
            · rw [show (throw (GenError.assertionError "") : Except GenError PUnit) =
                  Except.error (GenError.assertionError "") from rfl, except_bind_error] at h
              simp at h
            · cases hrsp : m.base.response with
              | some resp =>
                rw [hrsp] at h
                simp only [except_pure_eq, except_bind_ok] at h
                cases hcv : isConversionRequiredE
                    (some (upsertSchema tbl (m.pascalCaseName ++ "Options")
                      (mkOptionsSchema primaryNm m
                        (m.pascalCaseName ++ "Options")))) resp with
                | error e => rw [hcv, except_bind_error] at h; simp at h
                | ok b =>
                  try simp only [hcv, except_bind_ok, except_pure_eq] at h
                  injection h with h
                  subst h
                  exact ⟨rfl, rfl⟩
              | none =>
                rw [hrsp] at h
                simp only [except_pure_eq, except_bind_ok] at h
                injection h with h
                subst h
                exact ⟨rfl, rfl⟩

/-- Over a whole method list: declarations are the initial ones followed by
one `methodDecl` per method, in order, and the decoder flag is unchanged. -/
theorem methodsPass_decls (primaryNm : String) :
    ∀ (methods : List MethodRec) (st res : GenSt),
    methodsPass primaryNm st methods = .ok res →
    res.decls = st.decls ++ methods.map (fun m => Decl.methodDecl m.camelCaseName) ∧
    res.needsDec = st.needsDec := by
  intro methods
  induction methods with
  | nil =>
    intro st res h
    rw [methodsPass] at h
    injection h with h
    subst h
    simp
  | cons m rest ih =>
    intro st res h
    rw [methodsPass] at h
    cases hw : writeMethodM primaryNm st m with
    | error e => rw [hw, except_bind_error] at h; simp at h
    | ok st1 =>
      rw [hw, except_bind_ok] at h
      obtain ⟨hd1, hn1⟩ := writeMethodM_ok hw
      obtain ⟨hd2, hn2⟩ := ih st1 res h
      constructor
      · rw [hd2, hd1]
        simp
      · rw [hn2, hn1]

/-- `#writeTypes` over the sorted table, characterized against the table
itself (membership in the sorted value list coincides with membership in
the table's values). -/
theorem typesPass_ok {st res : GenSt} (h : typesPass st = .ok res) :
    res.table = st.table ∧
    (∃ delta, res.decls = st.decls ++ delta ∧
      (∀ x ∈ delta, (∃ i, x = Decl.interfaceDecl i) ∨ (∃ i, x = Decl.serializeFn i) ∨
        (∃ i, x = Decl.deserializeFn i)) ∧
      (∀ i, Decl.serializeFn i ∈ delta ↔
        ∃ tbl, st.table = some tbl ∧ ∃ s ∈ tbl.map Prod.snd,
          s.id = some i ∧ isConversionRequiredE st.table s = .ok true) ∧
      (∀ i, Decl.deserializeFn i ∈ delta ↔
        ∃ tbl, st.table = some tbl ∧ ∃ s ∈ tbl.map Prod.snd,
          s.id = some i ∧ isConversionRequiredE st.table s = .ok true)) ∧
    (res.needsDec = true ↔ st.needsDec = true ∨
      ∃ tbl, st.table = some tbl ∧ ∃ s ∈ tbl.map Prod.snd,
        isConversionRequiredE st.table s = .ok true ∧
        deserFlagsE st.table s = .ok true) ∧
    (res.needsEnc = true ↔ st.needsEnc = true ∨
      ∃ tbl, st.table = some tbl ∧ ∃ s ∈ tbl.map Prod.snd,
        isConversionRequiredE st.table s = .ok true ∧
        serFlagsE st.table s = .ok true) := by
  rw [typesPass] at h
  cases htb : st.table with
  | none =>
    rw [htb] at h
    injection h with h
    subst h
    refine ⟨htb, ⟨[], by simp, by simp, ?_, ?_⟩, ?_, ?_⟩
    · intro i
      simp only [List.not_mem_nil, false_iff]
      rintro ⟨tbl, htbl, _⟩
      cases htbl
    · intro i
      simp only [List.not_mem_nil, false_iff]
      rintro ⟨tbl, htbl, _⟩
      cases htbl
    · constructor
      · exact fun h1 => Or.inl h1
      · rintro (h1 | ⟨tbl, htbl, _⟩)
        · exact h1
        · cases htbl
    · constructor
      · exact fun h1 => Or.inl h1
      · rintro (h1 | ⟨tbl, htbl, _⟩)
        · exact h1
        · cases htbl
  | some tbl =>
    rw [htb] at h
    simp only [] at h
    obtain ⟨htb2, ⟨delta, hdecls, hshape, hser, hdeser⟩, hdec, henc⟩ :=
      typesLoop_decls (some tbl) _ st res h
    have hmem : ∀ s : JsonSchema,
        s ∈ List.insertionSort schemaIdLe (tbl.map Prod.snd) ↔ s ∈ tbl.map Prod.snd :=
      fun s => List.mem_insertionSort schemaIdLe
    refine ⟨htb ▸ htb2, ⟨delta, hdecls, hshape, ?_, ?_⟩, ?_, ?_⟩
    · intro i
      rw [hser i]
      constructor
      · rintro ⟨s, hs, hid, hcv⟩
        exact ⟨tbl, rfl, s, (hmem s).mp hs, hid, hcv⟩
      · rintro ⟨tbl', htbl', s, hs, hid, hcv⟩
        injection htbl' with htbl'
        subst htbl'
        exact ⟨s, (hmem s).mpr hs, hid, hcv⟩
    · intro i
      rw [hdeser i]
      constructor
      · rintro ⟨s, hs, hid, hcv⟩
        exact ⟨tbl, rfl, s, (hmem s).mp hs, hid, hcv⟩
      · rintro ⟨tbl', htbl', s, hs, hid, hcv⟩
        injection htbl' with htbl'
        subst htbl'
        exact ⟨s, (hmem s).mpr hs, hid, hcv⟩
    · rw [hdec]
      constructor
      · rintro (h1 | ⟨s, hs, hcv, hf⟩)
        · exact Or.inl h1
        · exact Or.inr ⟨tbl, rfl, s, (hmem s).mp hs, hcv, hf⟩
      · rintro (h1 | ⟨tbl', htbl', s, hs, hcv, hf⟩)
        · exact Or.inl h1
        · injection htbl' with htbl'
          subst htbl'
          exact Or.inr ⟨s, (hmem s).mpr hs, hcv, hf⟩
    · rw [henc]
      constructor
      · rintro (h1 | ⟨s, hs, hcv, hf⟩)
        · exact Or.inl h1
        · exact Or.inr ⟨tbl, rfl, s, (hmem s).mp hs, hcv, hf⟩
      · rintro (h1 | ⟨tbl', htbl', s, hs, hcv, hf⟩)
        · exact Or.inl h1
        · injection htbl' with htbl'
          subst htbl'
          exact Or.inr ⟨s, (hmem s).mpr hs, hcv, hf⟩

/-- Inversion of the truthiness assert: success means the field is present
and nonempty. -/
theorem assertTruthy_ok {o : Option String} {s : String}
    (h : assertTruthy o = .ok s) : o = some s ∧ s ≠ "" := by
  cases o with
  | none => simp [assertTruthy] at h
  | some t =>
    rw [assertTruthy] at h
    by_cases ht : t = ""
    · rw [if_pos ht] at h
      cases h
    · rw [if_neg ht] at h
      injection h with h
      subst h
      exact ⟨rfl, ht⟩

/-- Inversion of a successful `generateCore`. -/
theorem generateCore_inv {d : RestDescription} {u : String} {r : GenResult}
    (h : generateCore d u = .ok r) :
    ∃ nm st1 st2,
      d.name = some nm ∧
      methodsPass (primaryName nm (splitOnSpace (d.title.getD "")))
        ⟨d.schemas, false, false, []⟩ (sortedMethods d) = .ok st1 ∧
      typesPass st1 = .ok st2 ∧
      r.decls = [Decl.header, Decl.imports,
          Decl.classDecl (primaryName nm (splitOnSpace (d.title.getD "")))] ++ st2.decls
        ++ (if st2.needsDec then [Decl.base64DecoderFn] else [])
        ++ (if st2.needsEnc then [Decl.base64EncoderFn] else []) ∧
      r.table = st2.table ∧ r.needsEnc = st2.needsEnc ∧ r.needsDec = st2.needsDec := by
  rw [generateCore] at h
  cases hnm : assertTruthy d.name with
  | error e => rw [hnm, except_bind_error] at h; simp at h
  | ok nm =>
    rw [hnm, except_bind_ok] at h
    cases httl : assertTruthy d.title with
    | error e => rw [httl, except_bind_error] at h; simp at h
    | ok ttl =>
      rw [httl, except_bind_ok] at h
      simp only [] at h
      cases hru : assertTruthy d.rootUrl with
      | error e => rw [hru, except_bind_error] at h; simp at h
      | ok ru =>
        rw [hru, except_bind_ok] at h
        split at h
        · rw [except_throw_bind] at h
          simp at h
        · cases hmp : methodsPass (primaryName nm (splitOnSpace (d.title.getD "")))
              ⟨d.schemas, false, false, []⟩ (sortedMethods d) with
          | error e =>
            rw [hmp, except_bind_error] at h
            simp at h
          | ok st1 =>
            rw [hmp, except_bind_ok] at h
            cases htp : typesPass st1 with
            | error e => rw [htp, except_bind_error] at h; simp at h
            | ok st2 =>
              rw [htp, except_bind_ok] at h
              injection h with h
              subst h
              exact ⟨nm, st1, st2, (assertTruthy_ok hnm).1, hmp, htp, rfl, rfl, rfl, rfl⟩

theorem mem_append_left_iff {x : Decl} {L1 L2 : List Decl} (h : x ∉ L1) :
    x ∈ L1 ++ L2 ↔ x ∈ L2 := by
  rw [List.mem_append]
  constructor
  · rintro (h1 | h1)
    · exact absurd h1 h
    · exact h1
  · exact Or.inr

theorem mem_append_right_iff {x : Decl} {L1 L2 : List Decl} (h : x ∉ L2) :
    x ∈ L1 ++ L2 ↔ x ∈ L1 := by
  rw [List.mem_append]
  constructor
  · rintro (h1 | h1)
    · exact h1
    · exact absurd h1 h
  · exact Or.inl

/-- C1 (amended). Codec parity: in any successful generation, `serializeX`
is emitted iff `deserializeX` is emitted (first conjunct, unconditional);
and — provided no two schemas of the emission-time table share an `id` —
both are emitted for a table entry `X` iff `isConversionRequired(X)` is
true (second conjunct).  The table here is the post-method-pass table, i.e.
it includes the synthetic `${PascalCaseName}Options` schemas. -/
theorem codec_parity {d : RestDescription} {u : String} {r : GenResult}
    (hgen : generateCore d u = .ok r) :
    (∀ i, Decl.serializeFn i ∈ r.decls ↔ Decl.deserializeFn i ∈ r.decls) ∧
    (∀ tbl, r.table = some tbl →
      (tbl.map (fun p => p.2.id)).Nodup →
      ∀ k s, (k, s) ∈ tbl → ∀ i, s.id = some i →
        (Decl.serializeFn i ∈ r.decls ↔ isConversionRequiredE r.table s = .ok true)) := by
  obtain ⟨nm, st1, st2, hnm, hmp, htp, hdecls, htbl, henc, hdec⟩ := generateCore_inv hgen
  obtain ⟨hmd, hmn⟩ := methodsPass_decls _ _ _ _ hmp
  obtain ⟨htb2, ⟨delta, hdelta, hshape, hser, hdeser⟩, hdecflag, hencflag⟩ := typesPass_ok htp
  have hms : ∀ i, (Decl.serializeFn i ∈ r.decls ↔ Decl.serializeFn i ∈ delta) := by
    intro i
    rw [hdecls, hdelta, hmd]
    rw [mem_append_right_iff (by split <;> simp), mem_append_right_iff (by split <;> simp)]
    rw [mem_append_left_iff (by simp)]
    rw [mem_append_left_iff (by
      simp only [List.nil_append, List.mem_map]
      rintro ⟨m, hm, hcontr⟩
      cases hcontr)]
  have hmdd : ∀ i, (Decl.deserializeFn i ∈ r.decls ↔ Decl.deserializeFn i ∈ delta) := by
    intro i
    rw [hdecls, hdelta, hmd]
    rw [mem_append_right_iff (by split <;> simp), mem_append_right_iff (by split <;> simp)]
    rw [mem_append_left_iff (by simp)]
    rw [mem_append_left_iff (by
      simp only [List.nil_append, List.mem_map]
      rintro ⟨m, hm, hcontr⟩
      cases hcontr)]
  constructor
  · intro i
    rw [hms i, hmdd i, hser i, hdeser i]
  · intro tbl hrt hnodup k s hks i hid
    have hst1 : st1.table = some tbl := by
      rw [← htb2, ← htbl, hrt]
    have hrt2 : r.table = st1.table := by rw [htbl, htb2]
    rw [hms i, hser i]
    constructor
    · rintro ⟨tbl', htbl', s', hs', hid', hcv'⟩
      rw [hst1] at htbl'
      injection htbl' with htbl'
      subst htbl'
      obtain ⟨p, hksp, hsnd⟩ := List.mem_map.mp hs'
      have heq : p = (k, s) := by
        apply List.inj_on_of_nodup_map hnodup hksp hks
        show p.2.id = s.id
        rw [hsnd, hid', hid]
      have hseq : s' = s := by rw [← hsnd, heq]
      subst hseq
      rw [hrt2]
      exact hcv'
    · intro hcv
      refine ⟨tbl, hst1, s, List.mem_map.mpr ⟨(k, s), hks, rfl⟩, hid, ?_⟩
      rw [← hrt2]
      exact hcv

/-- C1 counterexample. `dupIdDoc` declares two schemas under distinct table
keys `"A"` and `"B"` but with the same `id` `"Z"`.  `("B", dupIdB)` is in
the emission-time table and `isConversionRequired(dupIdB)` is `false`, yet
`serializeZ` (and `deserializeZ`) is in the output — emitted for the sibling
entry `("A", dupIdA)`.  So the claim's "both exist iff
`isConversionRequired(X)` is true", quantified over every table entry `X`,
fails as stated; it holds only under the amendment that table entries have
pairwise distinct `id`s (or with X ranging over ids rather than entries). -/
theorem codec_parity_cex :
    generateCore dupIdDoc "u" =
      .ok ⟨dupIdDecls, some [("A", dupIdA), ("B", dupIdB)], false, false⟩ ∧
    ("B", dupIdB) ∈ [("A", dupIdA), ("B", dupIdB)] ∧
    dupIdB.id = some "Z" ∧
    isConversionRequiredE (some [("A", dupIdA), ("B", dupIdB)]) dupIdB = .ok false ∧
    Decl.serializeFn "Z" ∈ dupIdDecls ∧
    Decl.deserializeFn "Z" ∈ dupIdDecls :=
  ⟨rfl, List.mem_cons_of_mem _ (List.mem_cons_self _ _), rfl, rfl,
   by decide, by decide⟩

/-- C1 witness: the amended theorem applied to the concrete document
`fooRODoc`, whose emission-time table is `[("Foo", fooROSchema)]` with
pairwise-distinct ids. -/
theorem codec_parity_witness :
    Decl.serializeFn "Foo" ∈ fooRODecls ↔
      isConversionRequiredE (some [("Foo", fooROSchema)]) fooROSchema = .ok true :=
  (@codec_parity fooRODoc "u"
      ⟨fooRODecls, some [("Foo", fooROSchema)], false, true⟩ rfl).2
    [("Foo", fooROSchema)] rfl (by decide) "Foo" fooROSchema
    (List.mem_cons_self _ _) "Foo" rfl

/-- C6 (amended). Base64 prelude: the decoder is appended (once, at the
end, before the encoder) iff `needsBase64Decoder` was set, the encoder iff
`needsBase64Encoder`; each appears at most once; and `needsBase64Decoder`
is set exactly when some emitted deserializer performs a byte decode.  The
flags are NOT always set together: the serializer skips `readOnly`
properties, so a `readOnly` byte property sets only the decoder flag. -/
theorem base64_prelude {d : RestDescription} {u : String} {r : GenResult}
    (hgen : generateCore d u = .ok r) :
    (Decl.base64DecoderFn ∈ r.decls ↔ r.needsDec = true) ∧
    (Decl.base64EncoderFn ∈ r.decls ↔ r.needsEnc = true) ∧
    r.decls.count Decl.base64DecoderFn ≤ 1 ∧
    r.decls.count Decl.base64EncoderFn ≤ 1 ∧
    (r.needsDec = true ↔ ∃ tbl, r.table = some tbl ∧ ∃ s ∈ tbl.map Prod.snd,
      isConversionRequiredE r.table s = .ok true ∧
      deserFlagsE r.table s = .ok true) ∧
    (∃ pre, r.decls = pre ++ (if r.needsDec then [Decl.base64DecoderFn] else [])
        ++ (if r.needsEnc then [Decl.base64EncoderFn] else []) ∧
      Decl.base64DecoderFn ∉ pre ∧ Decl.base64EncoderFn ∉ pre) := by
  obtain ⟨nm, st1, st2, hnm, hmp, htp, hdecls, htbl, henc, hdec⟩ := generateCore_inv hgen
  obtain ⟨hmd, hmn⟩ := methodsPass_decls _ _ _ _ hmp
  obtain ⟨htb2, ⟨delta, hdelta, hshape, hser, hdeser⟩, hdecflag, hencflag⟩ := typesPass_ok htp
  have hst2shape : ∀ x ∈ st2.decls, (∃ i, x = Decl.methodDecl i) ∨
      (∃ i, x = Decl.interfaceDecl i) ∨ (∃ i, x = Decl.serializeFn i) ∨
      (∃ i, x = Decl.deserializeFn i) := by
    intro x hx
    rw [hdelta, hmd] at hx
    rcases List.mem_append.mp hx with h1 | h2
    · rcases List.mem_append.mp h1 with h0 | hm
      · simp at h0
      · obtain ⟨m, _, hmEq⟩ := List.mem_map.mp hm
        exact Or.inl ⟨_, hmEq.symm⟩
    · rcases hshape x h2 with ⟨i, hi⟩ | ⟨i, hi⟩ | ⟨i, hi⟩
      · exact Or.inr (Or.inl ⟨i, hi⟩)
      · exact Or.inr (Or.inr (Or.inl ⟨i, hi⟩))
      · exact Or.inr (Or.inr (Or.inr ⟨i, hi⟩))
  have hpre_dec : Decl.base64DecoderFn ∉ [Decl.header, Decl.imports,
      Decl.classDecl (primaryName nm (splitOnSpace (d.title.getD "")))] ++ st2.decls := by
    intro hx
    rcases List.mem_append.mp hx with h1 | h2
    · simp at h1
    · rcases hst2shape _ h2 with ⟨i, hi⟩ | ⟨i, hi⟩ | ⟨i, hi⟩ | ⟨i, hi⟩ <;> cases hi
  have hpre_enc : Decl.base64EncoderFn ∉ [Decl.header, Decl.imports,
      Decl.classDecl (primaryName nm (splitOnSpace (d.title.getD "")))] ++ st2.decls := by
    intro hx
    rcases List.mem_append.mp hx with h1 | h2
    · simp at h1
    · rcases hst2shape _ h2 with ⟨i, hi⟩ | ⟨i, hi⟩ | ⟨i, hi⟩ | ⟨i, hi⟩ <;> cases hi
  have hd1 : st1.needsDec = false := hmn
  have hrt : r.table = st1.table := by rw [htbl, htb2]
  refine ⟨?_, ?_, ?_, ?_, ?_, ?_⟩
  · rw [hdecls, hdec]
    rw [mem_append_right_iff (by split <;> simp)]
    rw [mem_append_left_iff hpre_dec]
    cases hd2 : st2.needsDec <;> simp [hd2]
  · rw [hdecls, henc]
    rw [List.append_assoc]
    rw [mem_append_left_iff hpre_enc]
    rw [List.mem_append]
    cases he2 : st2.needsEnc <;> cases hd2 : st2.needsDec <;> simp [hd2, he2]
  · rw [hdecls]
    rw [List.count_append, List.count_append]
    rw [List.count_eq_zero.mpr hpre_dec]
    have h1 : List.count Decl.base64DecoderFn
        (if st2.needsDec then [Decl.base64DecoderFn] else []) ≤ 1 := by
      split <;> simp
    have h2 : List.count Decl.base64DecoderFn
        (if st2.needsEnc then [Decl.base64EncoderFn] else []) = 0 := by
      split <;> simp
    omega
  · rw [hdecls]
    rw [List.count_append, List.count_append]
    rw [List.count_eq_zero.mpr hpre_enc]
    have h1 : List.count Decl.base64EncoderFn
        (if st2.needsDec then [Decl.base64DecoderFn] else []) = 0 := by
      split <;> simp
    have h2 : List.count Decl.base64EncoderFn
        (if st2.needsEnc then [Decl.base64EncoderFn] else []) ≤ 1 := by
      split <;> simp
    omega
  · rw [hdec, hrt, hdecflag, hd1]
    simp only [Bool.false_eq_true, false_or]
  · exact ⟨_, by rw [hdecls, hdec, henc], hpre_dec, hpre_enc⟩

/-- C6 counterexample. `fooRODoc` has a schema with a `readOnly`
byte-format property: the emitted deserializer decodes base64 (the decoder
flag and helper are emitted) but the serializer skips the `readOnly`
property, so NO encoder is emitted even though a byte-format codec was.
This refutes the claim's "the output module ends with both the
constant-table base64 encoder and the base64 decoder". -/
theorem base64_prelude_cex :
    generate fooRODoc "u" = .ok fooRODecls ∧
    Decl.deserializeFn "Foo" ∈ fooRODecls ∧
    deserFlagsE (some [("Foo", fooROSchema)]) fooROSchema = .ok true ∧
    serFlagsE (some [("Foo", fooROSchema)]) fooROSchema = .ok false ∧
    Decl.base64DecoderFn ∈ fooRODecls ∧
    Decl.base64EncoderFn ∉ fooRODecls :=
  ⟨rfl, by decide, rfl, rfl, by decide, by decide⟩

/-- C6 witness: the amended theorem applied to `fooRODoc`, whose result
has the decoder flag set. -/
theorem base64_prelude_witness :
    Decl.base64DecoderFn ∈ fooRODecls ↔ true = true :=
  (@base64_prelude fooRODoc "u"
    ⟨fooRODecls, some [("Foo", fooROSchema)], false, true⟩ rfl).1

/-- C8. Determinism: the generator is a pure synchronous function of the
pair (Discovery document, selfUrl) — it reads no clock, randomness or
ambient state — so any two runs on the same input produce the same
output. -/
theorem generate_deterministic {d : RestDescription} {u : String}
    {o1 o2 : Except GenError (List Decl)}
    (h1 : GenerateRun d u o1) (h2 : GenerateRun d u o2) : o1 = o2 := by
  cases h1
  cases h2
  rfl

/-- C8 witness: two runs on the cyclic-schema document coincide. -/
theorem generate_deterministic_witness :
    generate cycDoc "u" = generate cycDoc "u" :=
  generate_deterministic (GenerateRun.run cycDoc "u") (GenerateRun.run cycDoc "u")

/-- The accumulator loop `for (const [name, param] of params)` of
`#visitResource` (lines 76-88) equals two location filters; parameters of
any other location fall through both `if`s and are dropped. -/
theorem partition_foldl (params : List (String × JsonSchema))
    (q0 p0 : List (String × JsonSchema)) :
    params.foldl (fun acc nv =>
        if nv.2.location = some "query" then (acc.1 ++ [nv], acc.2)
        else if nv.2.location = some "path" then (acc.1, acc.2 ++ [nv])
        else acc) (q0, p0) =
      (q0 ++ params.filter (fun nv => decide (nv.2.location = some "query")),
       p0 ++ params.filter (fun nv => decide (nv.2.location = some "path"))) := by
  induction params generalizing q0 p0 with
  | nil => simp
  | cons nv rest ih =>
    rw [List.foldl_cons, List.filter_cons, List.filter_cons]
    by_cases hq : nv.2.location = some "query"
    · have hp : ¬ nv.2.location = some "path" := by rw [hq]; simp
      rw [if_pos hq, if_pos (show decide (nv.2.location = some "query") = true by
            simpa using hq),
          if_neg (show ¬ decide (nv.2.location = some "path") = true by
            simpa using hp), ih]
      simp
    · by_cases hp : nv.2.location = some "path"
      · rw [if_neg hq, if_pos hp,
            if_neg (show ¬ decide (nv.2.location = some "query") = true by
              simpa using hq),
            if_pos (show decide (nv.2.location = some "path") = true by
              simpa using hp), ih]
        simp
      · rw [if_neg hq, if_neg hp,
            if_neg (show ¬ decide (nv.2.location = some "query") = true by
              simpa using hq),
            if_neg (show ¬ decide (nv.2.location = some "path") = true by
              simpa using hp), ih]

mutual

/-- Every record produced by the resource traversal is `mkMethodRec` of
some name path and its own base method. -/
theorem mem_visitResource (names : List String) (res : RestResource) :
    ∀ r ∈ visitResource names res, ∃ parts, r = mkMethodRec parts r.base := by
  match res with
  | .mk ms rs =>
    intro r hr
    rw [visitResource.eq_def] at hr
    rcases List.mem_append.mp hr with h1 | h2
    · cases ms with
      | none => simp at h1
      | some l =>
        obtain ⟨p, hp, hpe⟩ := List.mem_map.mp h1
        refine ⟨names ++ [p.1], ?_⟩
        rw [← hpe]
        rfl
    · cases rs with
      | none => simp at h2
      | some l => exact mem_visitResources names l r h2

theorem mem_visitResources (names : List String) (l : List (String × RestResource)) :
    ∀ r ∈ visitResources names l, ∃ parts, r = mkMethodRec parts r.base := by
  match l with
  | [] => intro r hr; rw [visitResources.eq_def] at hr; simp at hr
  | (nm, res) :: rest =>
    intro r hr
    rw [visitResources.eq_def] at hr
    rcases List.mem_append.mp hr with h1 | h2
    · exact mem_visitResource (names ++ [nm]) res r h1
    · exact mem_visitResources names rest r h2

end

theorem mkMethodRec_queryParams (parts : List String) (m : RestMethod) :
    (mkMethodRec parts m).queryParams = List.insertionSort paramLe
      ((m.parameters.getD []).filter (fun nv => decide (nv.2.location = some "query"))) := by
  cases hmp : m.parameters with
  | none => simp [mkMethodRec, hmp]
  | some params =>
    simp only [mkMethodRec, hmp, Option.getD_some]
    rw [partition_foldl]
    simp

theorem mkMethodRec_pathParams (parts : List String) (m : RestMethod) :
    (mkMethodRec parts m).pathParams = List.insertionSort paramLe
      ((m.parameters.getD []).filter (fun nv => decide (nv.2.location = some "path"))) := by
  cases hmp : m.parameters with
  | none => simp [mkMethodRec, hmp]
  | some params =>
    simp only [mkMethodRec, hmp, Option.getD_some]
    rw [partition_foldl]
    simp

/-- C7. Flattener partitioning and ordering: the flattened records are
sorted by `camelCaseName` (and are a permutation of the traversal order);
every record's `queryParams`/`pathParams` are sorted lexicographically by
parameter name and are, up to that sort, exactly the `location == "query"`
/ `location == "path"` filters of the method's parameters — parameters of
any other location are ignored. -/
theorem flattener_partition_sort (d : RestDescription) :
    List.Sorted mrecLe (sortedMethods d) ∧
    List.Perm (sortedMethods d) (flattenMethods d) ∧
    ∀ r ∈ flattenMethods d,
      List.Sorted paramLe r.queryParams ∧
      List.Sorted paramLe r.pathParams ∧
      List.Perm r.queryParams ((r.base.parameters.getD []).filter
        (fun nv => decide (nv.2.location = some "query"))) ∧
      List.Perm r.pathParams ((r.base.parameters.getD []).filter
        (fun nv => decide (nv.2.location = some "path"))) := by
  refine ⟨List.sorted_insertionSort mrecLe _, List.perm_insertionSort mrecLe _, ?_⟩
  intro r hr
  have hmem : ∃ parts, r = mkMethodRec parts r.base := by
    cases hres : d.resources with
    | none => rw [flattenMethods, hres] at hr; simp at hr
    | some rs =>
      rw [flattenMethods, hres] at hr
      exact mem_visitResources [] rs r hr
  obtain ⟨parts, hre⟩ := hmem
  have h1 := mkMethodRec_queryParams parts r.base
  have h2 := mkMethodRec_pathParams parts r.base
  rw [← hre] at h1 h2
  rw [h1, h2]
  exact ⟨List.sorted_insertionSort _ _, List.sorted_insertionSort _ _,
    List.perm_insertionSort _ _, List.perm_insertionSort _ _⟩

/-- C7 witness: the record of `things.get` in `manyParamsDoc` has its two
query parameters and two path parameters sorted and the `"body"`-located
parameter dropped. -/
theorem flattener_partition_sort_witness :
    List.Sorted mrecLe (sortedMethods manyParamsDoc) ∧
    List.Sorted paramLe
      (MethodRec.mk manyParamsMethod "thingsGet" "ThingsGet"
        [("aq", queryStrNode), ("zq", queryStrNode)]
        [("ap", pathStrNode), ("bp", pathStrNode)]).queryParams ∧
    List.Perm
      (MethodRec.mk manyParamsMethod "thingsGet" "ThingsGet"
        [("aq", queryStrNode), ("zq", queryStrNode)]
        [("ap", pathStrNode), ("bp", pathStrNode)]).pathParams
      ((manyParamsMethod.parameters.getD []).filter
        (fun nv => decide (nv.2.location = some "path"))) :=
  ⟨(flattener_partition_sort manyParamsDoc).1,
   ((flattener_partition_sort manyParamsDoc).2.2 _
      (List.mem_singleton.mpr rfl)).1,
   ((flattener_partition_sort manyParamsDoc).2.2 _
      (List.mem_singleton.mpr rfl)).2.2.2⟩

/-- C4 (amended). `primaryName` case-correction: the loop returns `name`
once the index passes the end; on a case-insensitive first-word match with
a NONEMPTY word it splices the word's original casing over
`[i, i + word.length)` and advances by the word's length; on a match with
the EMPTY word (reachable: `title.split(" ")` yields `""` pieces for
consecutive or trailing spaces) the splice is a no-op and the
`index === startIndex` guard advances by ONE character — not by the
word's (zero) length as the original claim says; with no match it
advances one character.  And concretely
`primaryName("bigquery", ["BigQuery", "API"]) = "BigQuery"`. -/
theorem primaryName_steps :
    (∀ words name i, name.length ≤ i → primaryNameLoop words name i = name) ∧
    (∀ words name i w, i < name.length →
      words.find? (fun v => lowerMatchAt name v i) = some w →
      0 < w.length →
      primaryNameLoop words name i =
        primaryNameLoop words (spliceAt name w i (i + w.length)) (i + w.length)) ∧
    (∀ words name i, i < name.length →
      words.find? (fun v => lowerMatchAt name v i) = some [] →
      primaryNameLoop words name i = primaryNameLoop words name (i + 1)) ∧
    (∀ words name i, i < name.length →
      words.find? (fun v => lowerMatchAt name v i) = none →
      primaryNameLoop words name i = primaryNameLoop words name (i + 1)) ∧
    primaryName "bigquery" ["BigQuery", "API"] = "BigQuery" := by
  refine ⟨?_, ?_, ?_, ?_, rfl⟩
  · intro words name i hle
    rw [primaryNameLoop]
    simp only [primaryNameGo]
    rw [if_neg (by omega)]
  · intro words name i w hi hfind hw
    have hp : lowerMatchAt name w i = true := by simpa using List.find?_some hfind
    have hle := lowerMatchAt_length_le (Nat.le_of_lt hi) hp
    have hlen : (spliceAt name w i (i + w.length)).length = name.length :=
      spliceAt_length rfl hle
    have hji : ¬ (i + w.length = i) := by omega
    rw [primaryNameLoop, primaryNameLoop]
    have hstep : primaryNameGo (name.length - i + 1) words name i =
        primaryNameGo (name.length - i) words
          (spliceAt name w i (i + w.length)) (i + w.length) := by
      simp only [primaryNameGo]
      rw [if_pos hi, hfind]
      dsimp only
      rw [if_neg hji]
    rw [hstep]
    apply primaryNameGo_fuel_irrelevant
    · rw [hlen]; omega
    · rw [hlen]; omega
  · intro words name i hi hfind
    rw [primaryNameLoop, primaryNameLoop]
    have hsp : spliceAt name [] i (i + ([] : List Char).length) = name := by
      simp [spliceAt]
    have hstep : primaryNameGo (name.length - i + 1) words name i =
        primaryNameGo (name.length - i) words name (i + 1) := by
      simp only [primaryNameGo]
      rw [if_pos hi, hfind]
      dsimp only
      rw [if_pos (show i + ([] : List Char).length = i from rfl), hsp]
      rfl
    rw [hstep, show name.length - (i + 1) + 1 = name.length - i from by omega]
  · intro words name i hi hfind
    rw [primaryNameLoop, primaryNameLoop]
    have hstep : primaryNameGo (name.length - i + 1) words name i =
        primaryNameGo (name.length - i) words name (i + 1) := by
      simp only [primaryNameGo]
      rw [if_pos hi, hfind]
    rw [hstep, show name.length - (i + 1) + 1 = name.length - i from by omega]

/-- C4 counterexample. `title.split(" ")` really produces empty-string
words (consecutive spaces), the empty word case-insensitively
prefix-matches at position 0 of `"xy"` (`find?` returns it) and its length
is 0 — so "advances by the word's length" would stall at position 0 —
yet the loop proceeds to position 1 and `primaryName "xy" [""]`
terminates with `"xy"`. -/
theorem primaryName_steps_cex :
    splitOnSpace "A  B" = ["A", "", "B"] ∧
    List.find? (fun w => lowerMatchAt ("xy").data w 0) [([] : List Char)] = some [] ∧
    ([] : List Char).length = 0 ∧
    primaryNameLoop [([] : List Char)] ("xy").data 0 =
      primaryNameLoop [([] : List Char)] ("xy").data 1 ∧
    primaryName "xy" [""] = "xy" :=
  ⟨rfl, rfl, rfl, rfl, rfl⟩

/-- C4 witness: the nonempty-match step applied at position 0 of
`"bigquery"` with the word `"BigQuery"`. -/
theorem primaryName_steps_witness :
    primaryNameLoop ["BigQuery".data, "API".data] "bigquery".data 0 =
      primaryNameLoop ["BigQuery".data, "API".data]
        (spliceAt "bigquery".data "BigQuery".data 0 (0 + "BigQuery".data.length))
        (0 + "BigQuery".data.length) :=
  primaryName_steps.2.1 ["BigQuery".data, "API".data] "bigquery".data 0
    "BigQuery".data (by decide) rfl (by decide)

/-- C5 (code bug). Dotted identifiers in the repeated-query-parameter loop:
the guard condition correctly brackets the dotted name
(`opts["foo.bar"]`, via `#writeIndex`), and so does the non-repeated
branch — but the `repeated` branch (line 462) interpolates the raw name
into `for (const ${name} of opts.${name})`, emitting the bare member
access `opts.foo.bar` (and an invalid binder `foo.bar`), contradicting
both the spec and the claim for this read position. -/
theorem dotted_repeated_query_bare :
    writeQueryGuard "foo.bar" true =
      "if (opts[\"foo.bar\"] !== undefined) \x7b\nfor (const foo.bar of opts.foo.bar) \x7b\nurl.searchParams.append(\"foo.bar\", String(foo.bar));\n\x7d\n\x7d" ∧
    writeQueryGuard "foo.bar" false =
      "if (opts[\"foo.bar\"] !== undefined) \x7b\nurl.searchParams.append(\"foo.bar\", String(opts[\"foo.bar\"]));\n\x7d" :=
  ⟨rfl, rfl⟩

theorem pascalCaseL_cons (s : List Char) (t : List (List Char)) :
    pascalCaseL (s :: t) = capFirst s ++ pascalCaseL t := rfl

theorem camelCaseL_cons_good (rest : List (List Char)) (acc : List Char) (hacc : acc ≠ []) :
    rest.foldl (fun name n => if name = [] then name ++ n else name ++ capFirst n) acc =
      acc ++ pascalCaseL rest := by
  induction rest generalizing acc with
  | nil => simp [pascalCaseL]
  | cons s t ih =>
    rw [List.foldl_cons, if_neg hacc]
    rw [ih _ (fun hc => hacc (List.append_eq_nil.mp hc).1)]
    rw [pascalCaseL_cons, List.append_assoc]

theorem camelCaseL_good (p : List Char) (rest : List (List Char)) (hp : p ≠ []) :
    camelCaseL (p :: rest) = p ++ pascalCaseL rest := by
  rw [camelCaseL, List.foldl_cons, if_pos rfl, List.nil_append]
  exact camelCaseL_cons_good rest p hp

theorem headUpperOrNil_pascal (rest : List (List Char))
    (h : ∀ s ∈ rest, lowerSeg s) : headUpperOrNil (pascalCaseL rest) := by
  cases rest with
  | nil => exact Or.inl rfl
  | cons s t =>
    obtain ⟨hne, hlow⟩ := h s (List.mem_cons_self _ _)
    cases s with
    | nil => exact absurd rfl hne
    | cons c cs =>
      refine Or.inr ⟨upChar c, cs ++ pascalCaseL t, ?_, ?_⟩
      · rw [pascalCaseL_cons]
        rfl
      · exact upChar_isUpper_of_lower (hlow c (List.mem_cons_self _ _))

theorem append_cancel_lower {A B : List Char} {p : List Char} :
    ∀ {q : List Char},
    (∀ c ∈ p, isLowerB c = true) → (∀ c ∈ q, isLowerB c = true) →
    headUpperOrNil A → headUpperOrNil B →
    p ++ A = q ++ B → p = q ∧ A = B := by
  induction p with
  | nil =>
    intro q hp hq hA hB h
    cases q with
    | nil => exact ⟨rfl, h⟩
    | cons d ds =>
      simp only [List.nil_append, List.cons_append] at h
      rcases hA with hA0 | ⟨c, cs, hAc, hup⟩
      · rw [hA0] at h; cases h
      · rw [hAc] at h
        injection h with h1 h2
        rw [h1] at hup
        rw [not_upper_of_lower (hq d (List.mem_cons_self _ _))] at hup
        cases hup
  | cons c cs ih =>
    intro q hp hq hA hB h
    cases q with
    | nil =>
      simp only [List.cons_append, List.nil_append] at h
      rcases hB with hB0 | ⟨d, ds, hBd, hup⟩
      · rw [hB0] at h; cases h
      · rw [hBd] at h
        injection h with h1 h2
        rw [← h1] at hup
        rw [not_upper_of_lower (hp c (List.mem_cons_self _ _))] at hup
        cases hup
    | cons d ds =>
      simp only [List.cons_append] at h
      injection h with h1 h2
      obtain ⟨hpq, hAB⟩ := ih (fun x hx => hp x (List.mem_cons_of_mem _ hx))
        (fun x hx => hq x (List.mem_cons_of_mem _ hx)) hA hB h2
      exact ⟨by rw [h1, hpq], hAB⟩

theorem pascalCaseL_injective : ∀ {l1 l2 : List (List Char)},
    (∀ s ∈ l1, lowerSeg s) → (∀ s ∈ l2, lowerSeg s) →
    pascalCaseL l1 = pascalCaseL l2 → l1 = l2 := by
  intro l1
  induction l1 with
  | nil =>
    intro l2 h1 h2 heq
    cases l2 with
    | nil => rfl
    | cons s t =>
      obtain ⟨hne, hlow⟩ := h2 s (List.mem_cons_self _ _)
      cases s with
      | nil => exact absurd rfl hne
      | cons c cs =>
        rw [pascalCaseL_cons] at heq
        cases heq
  | cons s t ih =>
    intro l2 h1 h2 heq
    cases l2 with
    | nil =>
      obtain ⟨hne, hlow⟩ := h1 s (List.mem_cons_self _ _)
      cases s with
      | nil => exact absurd rfl hne
      | cons c cs =>
        rw [pascalCaseL_cons] at heq
        cases heq
    | cons s2 t2 =>
      obtain ⟨hne, hlow⟩ := h1 s (List.mem_cons_self _ _)
      obtain ⟨hne2, hlow2⟩ := h2 s2 (List.mem_cons_self _ _)
      cases s with
      | nil => exact absurd rfl hne
      | cons c cs =>
        cases s2 with
        | nil => exact absurd rfl hne2
        | cons c2 cs2 =>
          rw [pascalCaseL_cons, pascalCaseL_cons] at heq
          simp only [capFirst, List.cons_append] at heq
          injection heq with hh ht
          have hc : c = c2 := upChar_inj_of_lower (hlow c (List.mem_cons_self _ _))
            (hlow2 c2 (List.mem_cons_self _ _)) hh
          obtain ⟨hcs, hpt⟩ := append_cancel_lower
            (fun x hx => hlow x (List.mem_cons_of_mem _ hx))
            (fun x hx => hlow2 x (List.mem_cons_of_mem _ hx))
            (headUpperOrNil_pascal t (fun x hx => h1 x (List.mem_cons_of_mem _ hx)))
            (headUpperOrNil_pascal t2 (fun x hx => h2 x (List.mem_cons_of_mem _ hx)))
            ht
          rw [hc, hcs, ih (fun x hx => h1 x (List.mem_cons_of_mem _ hx))
            (fun x hx => h2 x (List.mem_cons_of_mem _ hx)) hpt]

theorem camelCaseL_injective {l1 l2 : List (List Char)}
    (h1 : ∀ s ∈ l1, lowerSeg s) (h2 : ∀ s ∈ l2, lowerSeg s)
    (heq : camelCaseL l1 = camelCaseL l2) : l1 = l2 := by
  cases l1 with
  | nil =>
    cases l2 with
    | nil => rfl
    | cons q t =>
      obtain ⟨hne, _⟩ := h2 q (List.mem_cons_self _ _)
      rw [camelCaseL_good q t hne] at heq
      cases q with
      | nil => exact absurd rfl hne
      | cons c cs => cases heq
  | cons p t1 =>
    obtain ⟨hne1, hlow1⟩ := h1 p (List.mem_cons_self _ _)
    cases l2 with
    | nil =>
      rw [camelCaseL_good p t1 hne1] at heq
      cases p with
      | nil => exact absurd rfl hne1
      | cons c cs => cases heq
    | cons q t2 =>
      obtain ⟨hne2, hlow2⟩ := h2 q (List.mem_cons_self _ _)
      rw [camelCaseL_good p t1 hne1, camelCaseL_good q t2 hne2] at heq
      obtain ⟨hpq, hF⟩ := append_cancel_lower hlow1 hlow2
        (headUpperOrNil_pascal t1 (fun x hx => h1 x (List.mem_cons_of_mem _ hx)))
        (headUpperOrNil_pascal t2 (fun x hx => h2 x (List.mem_cons_of_mem _ hx)))
        heq
      rw [hpq, pascalCaseL_injective (fun x hx => h1 x (List.mem_cons_of_mem _ hx))
        (fun x hx => h2 x (List.mem_cons_of_mem _ hx)) hF]

/-- C3 (amended). `camelCase` is injective on name paths whose segments
are nonempty and all-lowercase (the segment boundaries are exactly the
uppercase positions, so the joined name determines the path).  Without
that restriction the claim fails: a segment with interior uppercase can
imitate a boundary — see the counterexample, where the resource paths
`["foo", "barBaz"]` and `["foo", "bar", "baz"]` both flatten to the
identifier `fooBarBaz`. -/
theorem camelCase_injective {parts1 parts2 : List String}
    (h1 : ∀ s ∈ parts1, s.data ≠ [] ∧ ∀ c ∈ s.data, isLowerB c = true)
    (h2 : ∀ s ∈ parts2, s.data ≠ [] ∧ ∀ c ∈ s.data, isLowerB c = true)
    (heq : camelCase parts1 = camelCase parts2) : parts1 = parts2 := by
  have hl : camelCaseL (parts1.map String.data) = camelCaseL (parts2.map String.data) := by
    have hc := congrArg String.data heq
    simpa [camelCase] using hc
  have hLL := camelCaseL_injective
    (fun s hs => by
      obtain ⟨x, hx, hxe⟩ := List.mem_map.mp hs
      exact hxe ▸ h1 x hx)
    (fun s hs => by
      obtain ⟨x, hx, hxe⟩ := List.mem_map.mp hs
      exact hxe ▸ h2 x hx)
    hl
  have hdata : Function.Injective String.data := fun a b hab => by
    cases a
    cases b
    exact congrArg String.mk hab
  exact List.map_injective_iff.mpr hdata hLL

/-- C3 counterexample. Two distinct resource paths produce the same
`camelCaseName`, and the document `collideDoc` realises the collision:
its flattened method list has two records both named `fooBarBaz`. -/
theorem method_name_collision_cex :
    camelCase ["foo", "barBaz"] = camelCase ["foo", "bar", "baz"] ∧
    (["foo", "barBaz"] : List String) ≠ ["foo", "bar", "baz"] ∧
    (sortedMethods collideDoc).map (fun m => m.camelCaseName) =
      ["fooBarBaz", "fooBarBaz"] :=
  ⟨rfl, by decide, rfl⟩

/-- C3 witness: the amended injectivity applied to the all-lowercase path
`["foo", "bar"]`. -/
theorem camelCase_injective_witness :
    (["foo", "bar"] : List String) = ["foo", "bar"] :=
  camelCase_injective (by decide) (by decide) rfl

theorem trimL_length (l : List Char) : (trimL l).length ≤ l.length := by
  rw [trimL]
  calc ((l.dropWhile isWs).reverse.dropWhile isWs).reverse.length
      = ((l.dropWhile isWs).reverse.dropWhile isWs).length := List.length_reverse _
    _ ≤ (l.dropWhile isWs).reverse.length := (List.dropWhile_sublist isWs).length_le
    _ = (l.dropWhile isWs).length := List.length_reverse _
    _ ≤ l.length := (List.dropWhile_sublist isWs).length_le

theorem trimL_subset {l : List Char} {c : Char} (h : c ∈ trimL l) : c ∈ l := by
  rw [trimL] at h
  rw [List.mem_reverse] at h
  have h2 := (List.dropWhile_sublist isWs).subset h
  rw [List.mem_reverse] at h2
  exact (List.dropWhile_sublist isWs).subset h2

theorem hasSS_cons_of_ne {c : Char} (hc : ¬ c = '*') (l : List Char) :
    hasSS (c :: l) = hasSS l := by
  cases l with
  | nil => rfl
  | cons d r => simp [hasSS, hc]

theorem hasSS_cons_of_ne2 {d : Char} (hd : ¬ d = '/') (c : Char) (l : List Char) :
    hasSS (c :: d :: l) = hasSS (d :: l) := by
  simp [hasSS, hd]

/-- `#escapeDocs` leaves no `*/` in its output: each occurrence becomes
`*\/`, and no new occurrence can form across the rewrite boundary. -/
theorem hasSS_escape : ∀ l : List Char, hasSS (escapeDocsL l) = false
  | [] => rfl
  | [_] => rfl
  | c :: d :: rest => by
    rw [escapeDocsL]
    by_cases h : c = '*' ∧ d = '/'
    · rw [if_pos h]
      rw [hasSS_cons_of_ne2 (by decide), hasSS_cons_of_ne (by decide),
        hasSS_cons_of_ne (by decide)]
      exact hasSS_escape rest
    · rw [if_neg h]
      by_cases hc : c = '*'
      · have hd : ¬ d = '/' := fun hd => h ⟨hc, hd⟩
        cases rest with
        | nil =>
          rw [escapeDocsL]
          simp [hasSS, hd]
        | cons e r =>
          rw [escapeDocsL]
          by_cases hde : d = '*' ∧ e = '/'
          · rw [if_pos hde, hasSS_cons_of_ne2 (by decide)]
            have ih := hasSS_escape (d :: e :: r)
            rw [escapeDocsL, if_pos hde] at ih
            exact ih
          · rw [if_neg hde, hasSS_cons_of_ne2 hd]
            have ih := hasSS_escape (d :: e :: r)
            rw [escapeDocsL, if_neg hde] at ih
            exact ih
      · rw [hasSS_cons_of_ne hc]
        exact hasSS_escape (d :: rest)

mutual

theorem splitWsGo_wsfree (cur : List Char) (l : List Char)
    (hcur : ∀ c ∈ cur, isWs c = false) :
    ∀ w ∈ splitWsGo cur l, ∀ c ∈ w, isWs c = false := by
  match l with
  | [] =>
    intro w hw c hc
    rw [splitWsGo.eq_def] at hw
    rw [List.mem_singleton] at hw
    subst hw
    exact hcur c (List.mem_reverse.mp hc)
  | x :: rest =>
    intro w hw c hc
    rw [splitWsGo.eq_def] at hw
    simp only [] at hw
    by_cases hx : isWs x = true
    · rw [if_pos hx] at hw
      rcases List.mem_cons.mp hw with h1 | h2
      · subst h1
        exact hcur c (List.mem_reverse.mp hc)
      · exact splitWsSkip_wsfree rest w h2 c hc
    · rw [if_neg hx] at hw
      refine splitWsGo_wsfree (x :: cur) rest ?_ w hw c hc
      intro e he
      rcases List.mem_cons.mp he with h1 | h2
      · subst h1
        simpa using hx
      · exact hcur e h2

theorem splitWsSkip_wsfree (l : List Char) :
    ∀ w ∈ splitWsSkip l, ∀ c ∈ w, isWs c = false := by
  match l with
  | [] =>
    intro w hw c hc
    rw [splitWsSkip.eq_def] at hw
    rw [List.mem_singleton] at hw
    subst hw
    simp at hc
  | x :: rest =>
    intro w hw c hc
    rw [splitWsSkip.eq_def] at hw
    simp only [] at hw
    by_cases hx : isWs x = true
    · rw [if_pos hx] at hw
      exact splitWsSkip_wsfree rest w hw c hc
    · rw [if_neg hx] at hw
      refine splitWsGo_wsfree [x] rest ?_ w hw c hc
      intro e he
      rw [List.mem_singleton] at he
      subst he
      simpa using hx

end

/-- Invariant of the wrapping loop: every completed line fits in `maxLen`
or is whitespace-free (a single unbreakable word), and so does the line
under construction. -/
theorem wrap_fold_inv (maxLen : Int) :
    ∀ (ws : List (List Char)) (acc : List (List Char) × List Char),
    (∀ w ∈ ws, ∀ c ∈ w, isWs c = false) →
    (∀ l ∈ acc.1, (l.length : Int) ≤ maxLen ∨ ∀ c ∈ l, isWs c = false) →
    ((acc.2.length : Int) ≤ maxLen ∨ ∀ c ∈ acc.2, isWs c = false) →
    (∀ l ∈ (ws.foldl (wrapStep maxLen) acc).1,
        (l.length : Int) ≤ maxLen ∨ ∀ c ∈ l, isWs c = false) ∧
    (((ws.foldl (wrapStep maxLen) acc).2.length : Int) ≤ maxLen ∨
        ∀ c ∈ (ws.foldl (wrapStep maxLen) acc).2, isWs c = false) := by
  intro ws
  induction ws with
  | nil =>
    intro acc hws hfin hcur
    exact ⟨hfin, hcur⟩
  | cons w rest ih =>
    intro acc hws hfin hcur
    rw [List.foldl_cons]
    have hw : ∀ c ∈ w, isWs c = false := hws w (List.mem_cons_self _ _)
    have hrest : ∀ v ∈ rest, ∀ c ∈ v, isWs c = false :=
      fun v hv => hws v (List.mem_cons_of_mem _ hv)
    rw [wrapStep]
    by_cases hov : (acc.2.length : Int) + w.length + 1 > maxLen
    · rw [if_pos hov]
      refine ih _ hrest ?_ (Or.inr hw)
      intro l hl
      rcases List.mem_append.mp hl with h1 | h2
      · exact hfin l h1
      · rw [List.mem_singleton] at h2
        subst h2
        rcases hcur with hle | hfree
        · left
          have := trimL_length acc.2
          omega
        · right
          exact fun c hc => hfree c (trimL_subset hc)
    · rw [if_neg hov]
      refine ih _ hrest hfin ?_
      left
      simp only [List.length_append, List.length_cons]
      push_cast
      omega

/-- C9 (amended). Doc-comment formatting: every wrapped body line is at
most `80 - 3 - 2 * indent` characters long OR is a single whitespace-free
word (the loop never breaks inside a word, so an over-long word exceeds
the bound — see the counterexample); the escaped description contains no
`*/`; and each parameter with a description contributes its
` * @param name description` line, while each body line appears as
` * line`. -/
theorem doc_comment_format (ind : Nat) (s : List Char) (ps : List DocParam) :
    (∀ line ∈ docBodyLines ind s,
       (line.length : Int) ≤ 80 - 3 - 2 * (ind : Int) ∨ ∀ c ∈ line, isWs c = false) ∧
    hasSS (escapeDocsL s) = false ∧
    (∀ p ∈ ps, ∀ dsc, p.description = some dsc →
       (toL " * @param " ++ p.name.data ++ ' ' :: dsc.data) ∈
         docCommentLines ind s (some ps)) ∧
    (∀ line ∈ docBodyLines ind s,
       toL " * " ++ line ∈ docCommentLines ind s (some ps)) := by
  refine ⟨?_, hasSS_escape s, ?_, ?_⟩
  · intro line hline
    simp only [docBodyLines] at hline
    have hws := splitWsGo_wsfree [] (escapeDocsL s) (by simp)
    have hinv := wrap_fold_inv (80 - 3 - 2 * (ind : Int)) (splitWs (escapeDocsL s))
      ([], []) hws (by simp) (Or.inr (by simp))
    rcases List.mem_append.mp hline with h1 | h2
    · exact hinv.1 line h1
    · rw [List.mem_singleton] at h2
      subst h2
      rcases hinv.2 with hle | hfree
      · left
        have := trimL_length ((splitWs (escapeDocsL s)).foldl
          (wrapStep (80 - 3 - 2 * (ind : Int))) ([], [])).2
        omega
      · right
        exact fun c hc => hfree c (trimL_subset hc)
  · intro p hp dsc hdsc
    rw [docCommentLines]
    refine List.mem_cons_of_mem _ ?_
    rw [List.mem_append]
    left
    rw [List.mem_append]
    right
    refine List.mem_cons_of_mem _ ?_
    refine List.mem_filterMap.mpr ⟨p, hp, ?_⟩
    rw [hdsc]
  · intro line hline
    rw [docCommentLines]
    refine List.mem_cons_of_mem _ ?_
    rw [List.mem_append]
    left
    rw [List.mem_append]
    left
    exact List.mem_map.mpr ⟨line, hline, rfl⟩

/-- C9 counterexample. A 100-character word is emitted as a body line of
length 100, exceeding the claimed bound `80 - 3 - 2*0 = 77`. -/
theorem doc_comment_format_cex :
    docBodyLines 0 (List.replicate 100 'a' ++ ' ' :: "tail".data) =
      [[], List.replicate 100 'a', "tail".data] ∧
    ¬ (((List.replicate 100 'a' : List Char).length : Int) ≤ 80 - 3 - 2 * (0 : Int)) :=
  ⟨rfl, by decide⟩

/-- C9 witness: the `@param` conjunct applied to a one-parameter list. -/
theorem doc_comment_format_witness :
    (toL " * @param " ++ ("x" : String).data ++ ' ' :: ("the x" : String).data) ∈
      docCommentLines 0 ("Hello world." : String).data
        (some [⟨"x", some "the x"⟩]) :=
  (doc_comment_format 0 ("Hello world." : String).data
    [⟨"x", some "the x"⟩]).2.2.1 ⟨"x", some "the x"⟩
    (List.mem_singleton.mpr rfl) "the x" rfl
